import Mathlib

/-!
# RNG: truncated normal and right-truncated gamma samplers

A shallow embedding of `src/RNG.hpp` (class `RNG`) and of the parts of
`src/GRNG.hpp` (class `BasicRNG`) that it calls.

Modelling conventions.

* A C `double` is a value of `Dbl K`: either `nan` or a number `fin x` with `x`
  in a linearly ordered field `K`.  Arithmetic on numbers is exact, `nan`
  propagates through every arithmetic operation and every comparison with
  `nan` is false, as in IEEE 754.  Infinities are not represented and a
  quotient by zero is `nan`.  The operations `+ - * /` are exact; the rounded
  operations are `radd`, `rsub`, `rmul`, `rdiv`, which take the rounding `r`
  of the exact result as an argument (`binary64` over the rationals), and
  `tnorm_left_right_mu_sd_rounded` is the shifted two sided entry point on
  them.  Underflow of the C `exp` is a property of the argument `CMath`.
* The GSL generator `gsl_rng * r` is a state of an arbitrary type `S`; every
  `gsl_ran_*` call is a function from the arguments and the state to a draw
  and the next state (`Gsl`).  The C library and the GSL special functions
  are pure functions (`CMath`).
* A `while` loop is a recursive function on a fuel argument; running out of
  fuel is the outcome `spin`.  A C++ `throw` is the outcome `throw`, which
  records the generator state at the point of the throw.  Text written to
  `stderr` or `stdout` is not part of the model.
-/

set_option linter.unusedSectionVars false

namespace RNG

/-! ## Doubles -/

/-- A C `double`: not-a-number, or a number of the field `K`. -/
inductive Dbl (K : Type) where
  | nan : Dbl K
  | fin (x : K) : Dbl K
  deriving DecidableEq, Repr

namespace Dbl

variable {K : Type} [LinearOrderedField K]

/-- C `std::isnan`. -/
def isnan : Dbl K → Bool
  | nan => true
  | fin _ => false

/-- C `x + y`, exact (`radd` is the rounded operation). -/
def add : Dbl K → Dbl K → Dbl K
  | fin x, fin y => fin (x + y)
  | _, _ => nan

/-- C `x - y`, exact (`rsub` is the rounded operation). -/
def sub : Dbl K → Dbl K → Dbl K
  | fin x, fin y => fin (x - y)
  | _, _ => nan

/-- C `x * y`, exact (`rmul` is the rounded operation). -/
def mul : Dbl K → Dbl K → Dbl K
  | fin x, fin y => fin (x * y)
  | _, _ => nan

/-- C `x / y`, exact (`rdiv` is the rounded operation); a quotient by zero has
no number as its value. -/
def div : Dbl K → Dbl K → Dbl K
  | fin x, fin y => if y = 0 then nan else fin (x / y)
  | _, _ => nan

/-- C unary minus. -/
def neg : Dbl K → Dbl K
  | fin x => fin (-x)
  | nan => nan

/-- C `x < y`: false as soon as one side is `nan`. -/
def lt : Dbl K → Dbl K → Prop
  | fin x, fin y => x < y
  | _, _ => False

/-- C `x <= y`: false as soon as one side is `nan`. -/
def le : Dbl K → Dbl K → Prop
  | fin x, fin y => x ≤ y
  | _, _ => False

instance : Add (Dbl K) := ⟨add⟩
instance : Sub (Dbl K) := ⟨sub⟩
instance : Mul (Dbl K) := ⟨mul⟩
instance : Div (Dbl K) := ⟨div⟩
instance : Neg (Dbl K) := ⟨neg⟩
instance : LT (Dbl K) := ⟨lt⟩
instance : LE (Dbl K) := ⟨le⟩

instance decLt (a b : Dbl K) : Decidable (a < b) :=
  match a, b with
  | fin x, fin y => inferInstanceAs (Decidable (x < y))
  | nan, _ => isFalse (fun h => h)
  | fin _, nan => isFalse (fun h => h)

instance decLe (a b : Dbl K) : Decidable (a ≤ b) :=
  match a, b with
  | fin x, fin y => inferInstanceAs (Decidable (x ≤ y))
  | nan, _ => isFalse (fun h => h)
  | fin _, nan => isFalse (fun h => h)

/-- Application of a C library function of one argument: `nan` in, `nan` out. -/
def app (f : K → Dbl K) : Dbl K → Dbl K
  | fin x => f x
  | nan => nan

/-- Application of a C library function of three arguments. -/
def app3 (f : K → K → K → Dbl K) : Dbl K → Dbl K → Dbl K → Dbl K
  | fin x, fin y, fin z => f x y z
  | _, _, _ => nan

/-- C `x + y` with the exact sum rounded to a double by `r`. -/
def radd (r : K → K) : Dbl K → Dbl K → Dbl K
  | fin x, fin y => fin (r (x + y))
  | _, _ => nan

/-- C `x - y` with the exact difference rounded to a double by `r`. -/
def rsub (r : K → K) : Dbl K → Dbl K → Dbl K
  | fin x, fin y => fin (r (x - y))
  | _, _ => nan

/-- C `x * y` with the exact product rounded to a double by `r`. -/
def rmul (r : K → K) : Dbl K → Dbl K → Dbl K
  | fin x, fin y => fin (r (x * y))
  | _, _ => nan

/-- C `x / y` with the exact quotient rounded to a double by `r`. -/
def rdiv (r : K → K) : Dbl K → Dbl K → Dbl K
  | fin x, fin y => if y = 0 then nan else fin (r (x / y))
  | _, _ => nan

end Dbl

open Dbl

/-! ## External collaborators -/

/-- The pure numeric functions the code calls: `sqrt`, `exp`, `log` of the C
library, `gsl_sf_lngamma` and `gsl_cdf_gamma_P(x, a, scale)` of GSL. -/
structure CMath (K : Type) where
  sqrt : K → Dbl K
  exp : K → Dbl K
  log : K → Dbl K
  sf_lngamma : K → Dbl K
  cdf_gamma_P : K → K → K → Dbl K

/-- The GSL sampling routines on a generator state `S`: `gsl_rng_uniform(r)`,
`gsl_ran_exponential(r, mu)`, `gsl_ran_gaussian(r, sigma)`,
`gsl_ran_gamma(r, a, b)`, `gsl_ran_flat(r, a, b)`, `gsl_ran_beta(r, a, b)`. -/
structure Gsl (K S : Type) where
  rng_uniform : S → Dbl K × S
  ran_exponential : Dbl K → S → Dbl K × S
  ran_gaussian : Dbl K → S → Dbl K × S
  ran_gamma : Dbl K → Dbl K → S → Dbl K × S
  ran_flat : Dbl K → Dbl K → S → Dbl K × S
  ran_beta : Dbl K → Dbl K → S → Dbl K × S

/-- The result of a call: a returned value with the generator state after it,
a thrown `std::runtime_error` with its message and the generator state at the
throw, a loop that is still running when the fuel is spent, or a signed
integer overflow (undefined behaviour). -/
inductive Outcome (α S : Type) where
  | ret (x : α) (s : S) : Outcome α S
  | throw (msg : String) (s : S) : Outcome α S
  | spin : Outcome α S
  | overflow : Outcome α S
  deriving DecidableEq, Repr

/-- The caller's arithmetic on a returned value; a throw passes through. -/
def Outcome.map {α S : Type} (f : α → α) : Outcome α S → Outcome α S
  | .ret x s => .ret (f x) s
  | .throw msg s => .throw msg s
  | .spin => .spin
  | .overflow => .overflow

section Code

variable {K S : Type} [LinearOrderedField K]

/-! ## `BasicRNG` (GRNG.hpp) -/

/-- Source function `BasicRNG::unif`. -/
def unif (G : Gsl K S) (s : S) : Dbl K × S := G.rng_uniform s

/-- Source function `BasicRNG::expon_mean`. -/
def expon_mean (G : Gsl K S) (mean : Dbl K) (s : S) : Dbl K × S :=
  G.ran_exponential mean s

/-- Source function `BasicRNG::expon_rate`. -/
def expon_rate (G : Gsl K S) (rate : Dbl K) (s : S) : Dbl K × S :=
  expon_mean G (fin 1.0 / rate) s

/-- Source function `BasicRNG::norm(mean, sd)`. -/
def norm (G : Gsl K S) (mean sd : Dbl K) (s : S) : Dbl K × S :=
  let g := G.ran_gaussian sd s
  (mean + g.1, g.2)

/-- Source function `BasicRNG::gamma_scale`. -/
def gamma_scale (G : Gsl K S) (shape scale : Dbl K) (s : S) : Dbl K × S :=
  G.ran_gamma shape scale s

/-- Source function `BasicRNG::gamma_rate`. -/
def gamma_rate (G : Gsl K S) (shape rate : Dbl K) (s : S) : Dbl K × S :=
  gamma_scale G shape (fin 1.0 / rate) s

/-- Source function `BasicRNG::flat`. -/
def flat (G : Gsl K S) (a b : Dbl K) (s : S) : Dbl K × S := G.ran_flat a b s

/-- Source function `BasicRNG::beta`. -/
def beta (G : Gsl K S) (a b : Dbl K) (s : S) : Dbl K × S := G.ran_beta a b s

/-- Source function `BasicRNG::p_gamma_rate`. -/
def p_gamma_rate (m : CMath K) (x shape rate : Dbl K) (use_log : Bool) : Dbl K :=
  let scale := fin 1.0 / rate
  let y := app3 m.cdf_gamma_P x shape scale
  if use_log then app m.log y else y

/-- Source function `BasicRNG::Gamma`. -/
def Gamma (m : CMath K) (x : Dbl K) (use_log : Bool) : Dbl K :=
  let y := app m.sf_lngamma x
  if !use_log then app m.exp y else y

/-! ## Truncated normal helper functions (RNG.hpp) -/

/-- Source constant `const double SQRT2PI`. -/
def SQRT2PI : Dbl K := fin 2.50662827

/-- Source function `RNG::alphastar`. -/
def alphastar (m : CMath K) (left : Dbl K) : Dbl K :=
  fin 0.5 * (left + app m.sqrt (left + fin 4))

/-- Source function `RNG::lowerbound`. -/
def lowerbound (m : CMath K) (left : Dbl K) : Dbl K :=
  let astar := alphastar m left
  let lbound := left + app m.exp (fin 0.5 * left * (left - astar) + fin 0.5)
  lbound

/-! ## Truncated normal -/

/-- The message of every `std::runtime_error` thrown by `tnorm`. -/
def paramProblem : String := "RNG::tnorm: parameter problem.\n"

/-- The loop of `tnorm(left)` for `left < 0`: accept/reject normal. -/
def tnorm_left_normal (G : Gsl K S) (left : Dbl K) : Nat → S → Outcome (Dbl K) S
  | 0, _ => .spin
  | fuel + 1, s =>
    let d := norm G (fin 0.0) (fin 1.0) s
    let ppsl := d.1
    if ppsl > left then .ret ppsl d.2 else tnorm_left_normal G left fuel d.2

/-- The loop of `tnorm(left)` for `left < 0` false: accept/reject exponential. -/
def tnorm_left_expon (G : Gsl K S) (m : CMath K) (left astar : Dbl K) :
    Nat → S → Outcome (Dbl K) S
  | 0, _ => .spin
  | fuel + 1, s =>
    let e := expon_rate G astar s
    let ppsl := e.1 + left
    let rho := app m.exp (fin (-0.5) * (ppsl - astar) * (ppsl - astar))
    let u := unif G e.2
    if u.1 < rho then .ret ppsl u.2 else tnorm_left_expon G m left astar fuel u.2

/-- Source function `RNG::tnorm(double left)`: one sided standard. -/
def tnorm_left (G : Gsl K S) (m : CMath K) (fuel : Nat) (left : Dbl K) (s : S) :
    Outcome (Dbl K) S :=
  if left < fin 0 then tnorm_left_normal G left fuel s
  else
    let astar := alphastar m left
    tnorm_left_expon G m left astar fuel s

/-- The inner `do ... while (ppsl > right)` of the truncated exponential
regime: `none` when the fuel is spent. -/
def tnorm_expon_draw (G : Gsl K S) (left right astar : Dbl K) :
    Nat → S → Option (Dbl K × S)
  | 0, _ => none
  | fuel + 1, s =>
    let e := expon_rate G astar s
    let ppsl := e.1 + left
    if ppsl > right then tnorm_expon_draw G left right astar fuel e.2
    else some (ppsl, e.2)

/-- The `while (true)` of the truncated exponential regime. -/
def tnorm_trunc_expon (G : Gsl K S) (m : CMath K) (left right astar : Dbl K) :
    Nat → S → Outcome (Dbl K) S
  | 0, _ => .spin
  | fuel + 1, s =>
    match tnorm_expon_draw G left right astar (fuel + 1) s with
    | none => .spin
    | some (ppsl, s1) =>
      let rho := app m.exp (fin (-0.5) * (ppsl - astar) * (ppsl - astar))
      let u := unif G s1
      if u.1 < rho then .ret ppsl u.2
      else tnorm_trunc_expon G m left right astar fuel u.2

/-- The `while (true)` of the uniform regime for `left >= 0`. -/
def tnorm_flat_pos (G : Gsl K S) (m : CMath K) (left right : Dbl K) :
    Nat → S → Outcome (Dbl K) S
  | 0, _ => .spin
  | fuel + 1, s =>
    let f := flat G left right s
    let ppsl := f.1
    let rho := app m.exp (fin 0.5 * (left * left - ppsl * ppsl))
    let u := unif G f.2
    if u.1 < rho then .ret ppsl u.2 else tnorm_flat_pos G m left right fuel u.2

/-- The `while (true)` of the uniform regime around zero. -/
def tnorm_flat_zero (G : Gsl K S) (m : CMath K) (left right : Dbl K) :
    Nat → S → Outcome (Dbl K) S
  | 0, _ => .spin
  | fuel + 1, s =>
    let f := flat G left right s
    let ppsl := f.1
    let rho := app m.exp (fin (-0.5) * ppsl * ppsl)
    let u := unif G f.2
    if u.1 < rho then .ret ppsl u.2 else tnorm_flat_zero G m left right fuel u.2

/-- The `while (true)` of the plain normal regime. -/
def tnorm_normal_both (G : Gsl K S) (left right : Dbl K) :
    Nat → S → Outcome (Dbl K) S
  | 0, _ => .spin
  | fuel + 1, s =>
    let d := norm G (fin 0) (fin 1) s
    let ppsl := d.1
    if left < ppsl ∧ ppsl < right then .ret ppsl d.2
    else tnorm_normal_both G left right fuel d.2

/-- The number of reflections `tnorm(left, right)` still has to make. -/
def reflections (right : Dbl K) : Nat := if right < fin 0 then 1 else 0

/-- Source function `RNG::tnorm(double left, double right)`: two sided standard. -/
def tnorm_left_right (G : Gsl K S) (m : CMath K) (fuel : Nat) (left right : Dbl K)
    (s : S) : Outcome (Dbl K) S :=
  if h1 : (isnan right || isnan left) = true then .throw paramProblem s
  else if right < left then .throw paramProblem s
  else if h3 : left ≥ fin 0 then
    let lbound := lowerbound m left
    if right > lbound then
      let astar := alphastar m left
      tnorm_trunc_expon G m left right astar fuel s
    else tnorm_flat_pos G m left right fuel s
  else if h4 : right ≥ fin 0 then
    if (right - left) < SQRT2PI then tnorm_flat_zero G m left right fuel s
    else tnorm_normal_both G left right fuel s
  else
    Outcome.map (fun x => fin (-1.0) * x)
      (tnorm_left_right G m fuel (fin (-1.0) * right) (fin (-1.0) * left) s)
termination_by reflections right
decreasing_by
  cases left with
  | nan => simp [isnan] at h1
  | fin l =>
    cases right with
    | nan => simp [isnan] at h1
    | fin r =>
      have hl : l < 0 := lt_of_not_ge h3
      have hr : r < 0 := lt_of_not_ge h4
      have h5 : ¬ (-1.0 * l < 0) := by
        have : (0:K) < -1.0 * l := by norm_num; exact hl
        exact not_lt.mpr this.le
      have e1 : reflections (fin (-1.0) * fin l) = 0 := if_neg h5
      have e2 : reflections (fin r) = 1 := if_pos hr
      rw [e1, e2]; exact Nat.one_pos

/-- Source function `RNG::tnorm(double left, double mu, double sd)`. -/
def tnorm_left_mu_sd (G : Gsl K S) (m : CMath K) (fuel : Nat) (left mu sd : Dbl K)
    (s : S) : Outcome (Dbl K) S :=
  let newleft := (left - mu) / sd
  Outcome.map (fun t => mu + t * sd) (tnorm_left G m fuel newleft s)

/-- Source function `RNG::tnorm(double left, double right, double mu, double sd)`.  The check of
the draw against the bounds after the call only writes to `stderr`. -/
def tnorm_left_right_mu_sd (G : Gsl K S) (m : CMath K) (fuel : Nat)
    (left right mu sd : Dbl K) (s : S) : Outcome (Dbl K) S :=
  let newleft := (left - mu) / sd
  let newright := (right - mu) / sd
  if newright < newleft then .throw paramProblem s
  else
    match tnorm_left_right G m fuel newleft newright s with
    | .ret tdraw s1 =>
      let draw := mu + tdraw * sd
      if draw < left ∨ draw > right then .ret draw s1 else .ret draw s1
    | .throw msg s1 => .throw msg s1
    | .spin => .spin
    | .overflow => .overflow

/-- The standardized bound `(x - mu) / sd` as the shifted entry points compute
it, each operation rounded by `r`. -/
def standardized (r : K → K) (x mu sd : Dbl K) : Dbl K :=
  rdiv r (rsub r x mu) sd

/-- Source function `RNG::tnorm(double left, double right, double mu, double sd)`
with the results of its own arithmetic operations rounded to doubles by `r`;
with `r` the identity it is `tnorm_left_right_mu_sd`. -/
def tnorm_left_right_mu_sd_rounded (r : K → K) (G : Gsl K S) (m : CMath K) (fuel : Nat)
    (left right mu sd : Dbl K) (s : S) : Outcome (Dbl K) S :=
  let newleft := standardized r left mu sd
  let newright := standardized r right mu sd
  if newright < newleft then .throw paramProblem s
  else
    match tnorm_left_right G m fuel newleft newright s with
    | .ret tdraw s1 =>
      let draw := radd r mu (rmul r tdraw sd)
      if draw < left ∨ draw > right then .ret draw s1 else .ret draw s1
    | .throw msg s1 => .throw msg s1
    | .spin => .spin
    | .overflow => .overflow

/-! ## Right truncated gamma -/

/-- The largest value of a C `int`. -/
def INT_MAX : Nat := 2147483647

/-- The `while (x > 1.0)` of `right_tgamma_reject`, entered with the current `x`. -/
def right_tgamma_reject_loop (G : Gsl K S) (shape rate : Dbl K) :
    Nat → Dbl K → S → Outcome (Dbl K) S
  | 0, _, _ => .spin
  | fuel + 1, x, s =>
    if x > fin 1.0 then
      let g := gamma_rate G shape rate s
      right_tgamma_reject_loop G shape rate fuel g.1 g.2
    else .ret x s

/-- Source function `RNG::right_tgamma_reject`: truncation at t = 1. -/
def right_tgamma_reject (G : Gsl K S) (fuel : Nat) (shape rate : Dbl K) (s : S) :
    Outcome (Dbl K) S :=
  let x : Dbl K := fin 2.0
  right_tgamma_reject_loop G shape rate fuel x s

/-- Source function `RNG::omega_k`; the `int k` is converted to `double` in `a+k`. -/
def omega_k (m : CMath K) (k : Nat) (a b : Dbl K) : Dbl K :=
  let log_coef := -b + (a + fin (k : K) - fin 1) * app m.log b
    - Gamma m (a + fin (k : K)) true - p_gamma_rate m (fin 1.0) a b true
  app m.exp log_coef

/-- The `while (u > cdf)` of `right_tgamma_beta`, entered with the current `k`
and `cdf`; the result is the `k` at the exit.  `++k` on `INT_MAX` is a signed
overflow. -/
def right_tgamma_beta_loop (m : CMath K) (a b u : Dbl K) :
    Nat → Nat → Dbl K → Outcome Nat Unit
  | 0, _, _ => .spin
  | fuel + 1, k, cdf =>
    if u > cdf then
      if k + 1 > INT_MAX then .overflow
      else right_tgamma_beta_loop m a b u fuel (k + 1) (cdf + omega_k m (k + 1) a b)
    else .ret k ()

/-- Source function `RNG::right_tgamma_beta`: truncation at t = 1. -/
def right_tgamma_beta (G : Gsl K S) (m : CMath K) (fuel : Nat) (shape rate : Dbl K)
    (s : S) : Outcome (Dbl K) S :=
  let a := shape
  let b := rate
  let u := unif G s
  match right_tgamma_beta_loop m a b u.1 fuel 1 (omega_k m 1 a b) with
  | .ret k _ =>
    let x := beta G a (fin (k : K)) u.2
    .ret x.1 x.2
  | .throw msg _ => .throw msg u.2
  | .spin => .spin
  | .overflow => .overflow

/-- Source function `RNG::rtgamma_rate`. -/
def rtgamma_rate (G : Gsl K S) (m : CMath K) (fuel : Nat) (shape rate right_t : Dbl K)
    (s : S) : Outcome (Dbl K) S :=
  let a := shape
  let b := rate * right_t
  let p := p_gamma_rate m (fin 1) a b false
  let y :=
    if p > fin 0.95 then right_tgamma_reject G fuel a b s
    else right_tgamma_beta G m fuel a b s
  Outcome.map (fun y => right_t * y) y

/-! ## The reductions as the specification words them -/

/-- The specification's reduction of the shifted one sided request: sample
the standard request `(left-mu)/sd`, return `mu + sd * x`. -/
def tnorm_left_mu_sd_reduced (G : Gsl K S) (m : CMath K) (fuel : Nat)
    (left mu sd : Dbl K) (s : S) : Outcome (Dbl K) S :=
  Outcome.map (fun x => mu + sd * x) (tnorm_left G m fuel ((left - mu) / sd) s)

/-- The specification's reduction of the shifted two sided request: sample
the standard request `((left-mu)/sd, (right-mu)/sd)`, return `mu + sd * x`. -/
def tnorm_left_right_mu_sd_reduced (G : Gsl K S) (m : CMath K) (fuel : Nat)
    (left right mu sd : Dbl K) (s : S) : Outcome (Dbl K) S :=
  Outcome.map (fun x => mu + sd * x)
    (tnorm_left_right G m fuel ((left - mu) / sd) ((right - mu) / sd) s)

/-- The specification's tilt `0.5*(left + sqrt(left² + 4))`. -/
def alphastar_spec (m : CMath K) (left : Dbl K) : Dbl K :=
  fin 0.5 * (left + app m.sqrt (left * left + fin 4))

/-- The generator state after `n` calls of `gamma_rate(shape, rate)` from `s`. -/
def gammaState (G : Gsl K S) (shape rate : Dbl K) (s : S) : Nat → S
  | 0 => s
  | n + 1 => (gamma_rate G shape rate (gammaState G shape rate s n)).2

/-- The draw of the call number `n` (from 0) of `gamma_rate(shape, rate)`
made from `s` on. -/
def gammaDraw (G : Gsl K S) (shape rate : Dbl K) (s : S) (n : Nat) : Dbl K :=
  (gamma_rate G shape rate (gammaState G shape rate s n)).1

/-- The partial sum `omega_1 + ... + omega_k`, added up in the order of the
loop of `right_tgamma_beta`. -/
def omega_sum (m : CMath K) (a b : Dbl K) : Nat → Dbl K
  | 0 => fin 0
  | 1 => omega_k m 1 a b
  | k + 2 => omega_sum m a b (k + 1) + omega_k m (k + 2) a b

/-! ## The interface of the external collaborators -/

/-- Exponential draws with a positive mean are numbers, not below zero. -/
def ExponNonneg (G : Gsl K S) : Prop :=
  ∀ (mu : K) (s : S), 0 < mu → ∃ e, (G.ran_exponential (fin mu) s).1 = fin e ∧ 0 ≤ e

/-- A flat draw on `[a, b]` with `a ≤ b` is a number of `[a, b]`. -/
def FlatBetween (G : Gsl K S) : Prop :=
  ∀ (a b : K) (s : S), a ≤ b → ∃ x, (G.ran_flat (fin a) (fin b) s).1 = fin x ∧ a ≤ x ∧ x ≤ b

/-- Gamma draws with positive shape and scale are positive numbers. -/
def GammaPos (G : Gsl K S) : Prop :=
  ∀ (a b : K) (s : S), 0 < a → 0 < b → ∃ g, (G.ran_gamma (fin a) (fin b) s).1 = fin g ∧ 0 < g

/-- Beta draws with positive parameters are numbers of `[0, 1]`. -/
def BetaUnit (G : Gsl K S) : Prop :=
  ∀ (a b : K) (s : S), 0 < a → 0 < b →
    ∃ x, (G.ran_beta (fin a) (fin b) s).1 = fin x ∧ 0 ≤ x ∧ x ≤ 1

/-- The square root of a positive number is a positive number. -/
def SqrtPos (m : CMath K) : Prop :=
  ∀ x : K, 0 < x → ∃ y, m.sqrt x = fin y ∧ 0 < y

end Code

/-! ## A counting generator over the rationals

A deterministic generator whose state is the number of draws made so far, and
rational stand-ins for the numeric functions; used to run the code on
concrete inputs. -/

/-- Rational stand-ins: one Heron step for `sqrt`, `1 + x` and `1/(1 - x)` for
`exp`, `x - 1` for `log`, a parabola through the zeros of `lngamma`, and
`x/(x + a*scale)` for the gamma distribution function. -/
def qMath : CMath ℚ where
  sqrt := fun x => if x < 0 then nan else fin ((1 + x) / 2)
  exp := fun x => if 0 ≤ x then fin (1 + x) else fin (1 / (1 - x))
  log := fun x => if 0 < x then fin (x - 1) else nan
  sf_lngamma := fun x => if 0 < x then fin ((x - 1) * (x - 2) / 2) else nan
  cdf_gamma_P := fun x a b =>
    if x ≤ 0 then fin 0 else if 0 < a ∧ 0 < b then fin (x / (x + a * b)) else nan

/-- The counting generator: the draw made in state `n` is a fixed rational
function of `n` and of the arguments, and the next state is `n + 1`. -/
def qGsl : Gsl ℚ ℕ where
  rng_uniform := fun n => (fin (1 / ((n : ℚ) + 2)), n + 1)
  ran_exponential := fun mu n => (mu * fin (n : ℚ), n + 1)
  ran_gaussian := fun sd n => (sd * fin ((n : ℚ) - 1), n + 1)
  ran_gamma := fun a b n => (a * b * fin (40 / ((n : ℚ) + 1)), n + 1)
  ran_flat := fun a b n => (a + (b - a) * fin (1 / ((n : ℚ) + 1)), n + 1)
  ran_beta := fun a b n => (a / (a + b), n + 1)

/-- The counting generator with a beta routine that returns the end point 0. -/
def qGslBetaZero : Gsl ℚ ℕ where
  rng_uniform := qGsl.rng_uniform
  ran_exponential := qGsl.ran_exponential
  ran_gaussian := qGsl.ran_gaussian
  ran_gamma := qGsl.ran_gamma
  ran_flat := qGsl.ran_flat
  ran_beta := fun _ _ n => (fin 0, n + 1)

/-- Rounding of a rational to the nearest integer, ties to the even one. -/
def roundHalfEven (q : ℚ) : ℤ :=
  if q - ⌊q⌋ < 1 / 2 then ⌊q⌋
  else if 1 / 2 < q - ⌊q⌋ then ⌊q⌋ + 1
  else if ⌊q⌋ % 2 = 0 then ⌊q⌋ else ⌊q⌋ + 1

/-- Rounding of a rational to the nearest IEEE 754 binary64 number, ties to
even: 53 significant bits, least exponent -1022 (subnormals below).  Overflow
to infinity is not represented: the exponent is not bounded above. -/
def binary64 (x : ℚ) : ℚ :=
  if x = 0 then 0
  else
    let e := max (Int.log 2 |x|) (-1022)
    (roundHalfEven (x / 2 ^ (e - 52)) : ℚ) * 2 ^ (e - 52)

section DblLemmas

variable {K : Type} [LinearOrderedField K]

@[simp] theorem Dbl.fin_add (x y : K) : (fin x + fin y : Dbl K) = fin (x + y) := rfl
@[simp] theorem Dbl.fin_sub (x y : K) : (fin x - fin y : Dbl K) = fin (x - y) := rfl
@[simp] theorem Dbl.fin_mul (x y : K) : (fin x * fin y : Dbl K) = fin (x * y) := rfl
@[simp] theorem Dbl.neg_fin (x : K) : (-(fin x) : Dbl K) = fin (-x) := rfl
@[simp] theorem Dbl.neg_nan : (-(nan) : Dbl K) = nan := rfl
@[simp] theorem Dbl.nan_add (a : Dbl K) : nan + a = nan := rfl
@[simp] theorem Dbl.add_nan (a : Dbl K) : a + nan = nan := by cases a <;> rfl
@[simp] theorem Dbl.nan_sub (a : Dbl K) : nan - a = nan := rfl
@[simp] theorem Dbl.sub_nan (a : Dbl K) : a - nan = nan := by cases a <;> rfl
@[simp] theorem Dbl.nan_mul (a : Dbl K) : nan * a = nan := rfl
@[simp] theorem Dbl.mul_nan (a : Dbl K) : a * nan = nan := by cases a <;> rfl
@[simp] theorem Dbl.nan_div (a : Dbl K) : nan / a = nan := rfl
@[simp] theorem Dbl.div_nan (a : Dbl K) : a / nan = nan := by cases a <;> rfl
@[simp] theorem Dbl.fin_div (x y : K) :
    (fin x / fin y : Dbl K) = if y = 0 then nan else fin (x / y) := rfl
@[simp] theorem Dbl.fin_lt (x y : K) : (fin x < fin y) ↔ x < y := Iff.rfl
@[simp] theorem Dbl.fin_le (x y : K) : (fin x ≤ fin y) ↔ x ≤ y := Iff.rfl
@[simp] theorem Dbl.not_nan_lt (a : Dbl K) : ¬ (nan < a) := fun h => h
@[simp] theorem Dbl.not_lt_nan (a : Dbl K) : ¬ (a < nan) := by
  cases a <;> exact fun h => h
@[simp] theorem Dbl.not_le_nan (a : Dbl K) : ¬ (a ≤ nan) := by
  cases a <;> exact fun h => h
@[simp] theorem Dbl.app_fin (f : K → Dbl K) (x : K) : app f (fin x) = f x := rfl
@[simp] theorem Dbl.app_nan (f : K → Dbl K) : app f nan = nan := rfl
@[simp] theorem Dbl.app3_fin (f : K → K → K → Dbl K) (x y z : K) :
    app3 f (fin x) (fin y) (fin z) = f x y z := rfl
@[simp] theorem Dbl.isnan_fin (x : K) : isnan (fin x) = false := rfl
@[simp] theorem Dbl.isnan_nan : isnan (nan : Dbl K) = true := rfl

theorem Dbl.isnan_iff (a : Dbl K) : isnan a = true ↔ a = nan := by
  cases a <;> simp

theorem Dbl.neg_one_times (a : Dbl K) : fin (-1.0) * a = -a := by
  cases a with
  | nan => rfl
  | fin x => simp; norm_num

end DblLemmas

/-! ## The tilt of the exponential proposal -/

section Tilt

/-- C1 (the code at `left = 5`): over the real numbers with the real square
root, whatever the other numeric functions, `alphastar(5)` is
`0.5*(5 + sqrt(5 + 4)) = 4`, the specification's tilt is
`0.5*(5 + sqrt(5*5 + 4))`, and the two differ. -/
theorem alphastar_at_five (e l g : ℝ → Dbl ℝ) (p : ℝ → ℝ → ℝ → Dbl ℝ) :
    let m : CMath ℝ := ⟨fun x => if 0 ≤ x then fin (Real.sqrt x) else nan, e, l, g, p⟩
    alphastar m (fin 5) = fin 4 ∧
    alphastar_spec m (fin 5) = fin (0.5 * (5 + Real.sqrt 29)) ∧
    alphastar m (fin 5) ≠ alphastar_spec m (fin 5) := by
  intro m
  have h9 : Real.sqrt 9 = 3 := by
    rw [show (9 : ℝ) = 3 ^ 2 by norm_num]
    exact Real.sqrt_sq (by norm_num)
  have e1 : alphastar m (fin 5) = fin 4 := by
    have h54 : (0 : ℝ) ≤ 5 + 4 := by norm_num
    simp only [alphastar, m, Dbl.fin_add, Dbl.app_fin, if_pos h54, Dbl.fin_mul]
    rw [show (5 : ℝ) + 4 = 9 by norm_num, h9]
    norm_num
  have e2 : alphastar_spec m (fin 5) = fin (0.5 * (5 + Real.sqrt 29)) := by
    have h29 : (0 : ℝ) ≤ 5 * 5 + 4 := by norm_num
    simp only [alphastar_spec, m, Dbl.fin_add, Dbl.fin_mul, Dbl.app_fin, if_pos h29]
    rw [show (5 : ℝ) * 5 + 4 = 29 by norm_num]
  refine ⟨e1, e2, ?_⟩
  rw [e1, e2]
  intro h
  injection h with h
  have h3 : Real.sqrt 29 = 3 := by linarith
  have h4 : Real.sqrt 29 ^ 2 = 29 := Real.sq_sqrt (by norm_num)
  rw [h3] at h4
  norm_num at h4

end Tilt

/-! ## The one sided sampler on a not-a-number bound -/

section NanBound

variable {K S : Type} [LinearOrderedField K]

theorem tnorm_left_expon_nan (G : Gsl K S) (m : CMath K) (astar : Dbl K) (fuel : Nat)
    (s : S) : tnorm_left_expon G m nan astar fuel s = .spin := by
  induction fuel generalizing s with
  | zero => rfl
  | succ n ih => simp [tnorm_left_expon, ih]

/-- C10: on a not-a-number `left` the one sided `tnorm(left)` takes the
exponential branch (`left < 0` is false) and is still looping whatever the
fuel, for every generator and every generator state: every proposal and every
acceptance ratio is `nan`, so `unif() < rho` is false. -/
theorem tnorm_left_nan_never_returns (G : Gsl K S) (m : CMath K) (fuel : Nat) (s : S) :
    ¬ ((nan : Dbl K) < fin 0) ∧
    tnorm_left G m fuel nan s = tnorm_left_expon G m nan (alphastar m nan) fuel s ∧
    (expon_rate G (alphastar m nan) s).1 + nan = nan ∧
    (∀ astar : Dbl K,
      app m.exp (fin (-0.5) * ((nan : Dbl K) - astar) * ((nan : Dbl K) - astar)) = nan) ∧
    (∀ u : Dbl K, ¬ (u < nan)) ∧
    tnorm_left G m fuel nan s = .spin := by
  refine ⟨Dbl.not_nan_lt _, ?_, Dbl.add_nan _, ?_, Dbl.not_lt_nan, ?_⟩
  · simp [tnorm_left]
  · intro astar; simp
  · simp [tnorm_left, tnorm_left_expon_nan]

end NanBound

/-! ## The branches of the two sided sampler -/

section Branches

variable {K S : Type} [LinearOrderedField K]

theorem tnorm_left_right_nan_left (G : Gsl K S) (m : CMath K) (fuel : Nat)
    (right : Dbl K) (s : S) :
    tnorm_left_right G m fuel nan right s = .throw paramProblem s := by
  rw [tnorm_left_right]; simp

theorem tnorm_left_right_nan_right (G : Gsl K S) (m : CMath K) (fuel : Nat)
    (left : Dbl K) (s : S) :
    tnorm_left_right G m fuel left nan s = .throw paramProblem s := by
  rw [tnorm_left_right]; simp

theorem tnorm_left_right_lt (G : Gsl K S) (m : CMath K) (fuel : Nat)
    (l r : K) (h : r < l) (s : S) :
    tnorm_left_right G m fuel (fin l) (fin r) s = .throw paramProblem s := by
  rw [tnorm_left_right]; simp [h]

theorem tnorm_left_right_nonneg (G : Gsl K S) (m : CMath K) (fuel : Nat)
    (l r : K) (h : l ≤ r) (h0 : 0 ≤ l) (s : S) :
    tnorm_left_right G m fuel (fin l) (fin r) s =
      if fin r > lowerbound m (fin l) then
        tnorm_trunc_expon G m (fin l) (fin r) (alphastar m (fin l)) fuel s
      else tnorm_flat_pos G m (fin l) (fin r) fuel s := by
  rw [tnorm_left_right]; simp [not_lt.mpr h, h0]

theorem tnorm_left_right_straddle (G : Gsl K S) (m : CMath K) (fuel : Nat)
    (l r : K) (hl : l < 0) (hr : 0 ≤ r) (s : S) :
    tnorm_left_right G m fuel (fin l) (fin r) s =
      if (fin r - fin l) < SQRT2PI then tnorm_flat_zero G m (fin l) (fin r) fuel s
      else tnorm_normal_both G (fin l) (fin r) fuel s := by
  rw [tnorm_left_right]
  simp [not_lt.mpr (le_trans hl.le hr), not_le.mpr hl, hr]

theorem tnorm_left_right_neg (G : Gsl K S) (m : CMath K) (fuel : Nat)
    (l r : K) (h : l ≤ r) (hr : r < 0) (s : S) :
    tnorm_left_right G m fuel (fin l) (fin r) s =
      Outcome.map (fun x => fin (-1.0) * x)
        (tnorm_left_right G m fuel (fin (-1.0) * fin r) (fin (-1.0) * fin l) s) := by
  rw [tnorm_left_right]
  simp [not_lt.mpr h, not_le.mpr hr, not_le.mpr (lt_of_le_of_lt h hr)]

theorem tnorm_trunc_expon_no_throw (G : Gsl K S) (m : CMath K) (left right astar : Dbl K)
    (fuel : Nat) (s : S) (msg : String) (s' : S) :
    tnorm_trunc_expon G m left right astar fuel s ≠ .throw msg s' := by
  induction fuel generalizing s with
  | zero => simp [tnorm_trunc_expon]
  | succ n ih =>
    rw [tnorm_trunc_expon]
    cases tnorm_expon_draw G left right astar (n + 1) s with
    | none => simp
    | some p =>
      obtain ⟨ppsl, s1⟩ := p
      dsimp only
      split
      · simp
      · exact ih _

theorem tnorm_flat_pos_no_throw (G : Gsl K S) (m : CMath K) (left right : Dbl K)
    (fuel : Nat) (s : S) (msg : String) (s' : S) :
    tnorm_flat_pos G m left right fuel s ≠ .throw msg s' := by
  induction fuel generalizing s with
  | zero => simp [tnorm_flat_pos]
  | succ n ih =>
    rw [tnorm_flat_pos]
    split
    · simp
    · exact ih _

theorem tnorm_flat_zero_no_throw (G : Gsl K S) (m : CMath K) (left right : Dbl K)
    (fuel : Nat) (s : S) (msg : String) (s' : S) :
    tnorm_flat_zero G m left right fuel s ≠ .throw msg s' := by
  induction fuel generalizing s with
  | zero => simp [tnorm_flat_zero]
  | succ n ih =>
    rw [tnorm_flat_zero]
    split
    · simp
    · exact ih _

theorem tnorm_normal_both_no_throw (G : Gsl K S) (left right : Dbl K)
    (fuel : Nat) (s : S) (msg : String) (s' : S) :
    tnorm_normal_both G left right fuel s ≠ .throw msg s' := by
  induction fuel generalizing s with
  | zero => simp [tnorm_normal_both]
  | succ n ih =>
    rw [tnorm_normal_both]
    split
    · simp
    · exact ih _

/-- A well formed interval with a non-negative left end is sampled by one of
the two loops of the `left >= 0` branch, which never throw. -/
theorem tnorm_left_right_nonneg_no_throw (G : Gsl K S) (m : CMath K) (fuel : Nat)
    (l r : K) (h : l ≤ r) (h0 : 0 ≤ l) (s : S) (msg : String) (s' : S) :
    tnorm_left_right G m fuel (fin l) (fin r) s ≠ .throw msg s' := by
  rw [tnorm_left_right_nonneg G m fuel l r h h0 s]
  split
  · exact tnorm_trunc_expon_no_throw G m _ _ _ fuel s msg s'
  · exact tnorm_flat_pos_no_throw G m _ _ fuel s msg s'

theorem Outcome.map_eq_throw {α S : Type} (f : α → α) (o : Outcome α S) (msg : String)
    (s : S) : Outcome.map f o = .throw msg s ↔ o = .throw msg s := by
  cases o <;> simp [Outcome.map]

theorem Outcome.map_eq_ret {α S : Type} (f : α → α) (o : Outcome α S) (y : α)
    (s : S) : Outcome.map f o = .ret y s ↔ ∃ x, o = .ret x s ∧ f x = y := by
  cases o with
  | ret x t =>
    simp only [Outcome.map, Outcome.ret.injEq]
    constructor
    · rintro ⟨h1, h2⟩; exact ⟨x, ⟨rfl, h2⟩, h1⟩
    · rintro ⟨x', ⟨rfl, h2⟩, h3⟩; exact ⟨h3, h2⟩
  | throw msg t => simp [Outcome.map]
  | spin => simp [Outcome.map]
  | overflow => simp [Outcome.map]

/-- No well formed interval makes the two sided sampler throw. -/
theorem tnorm_left_right_no_throw (G : Gsl K S) (m : CMath K) (fuel : Nat)
    (l r : K) (h : l ≤ r) (s : S) (msg : String) (s' : S) :
    tnorm_left_right G m fuel (fin l) (fin r) s ≠ .throw msg s' := by
  rcases le_or_lt 0 l with h0 | h0
  · exact tnorm_left_right_nonneg_no_throw G m fuel l r h h0 s msg s'
  · rcases le_or_lt 0 r with hr | hr
    · rw [tnorm_left_right_straddle G m fuel l r h0 hr s]
      split
      · exact tnorm_flat_zero_no_throw G m _ _ fuel s msg s'
      · exact tnorm_normal_both_no_throw G _ _ fuel s msg s'
    · rw [tnorm_left_right_neg G m fuel l r h hr s, Ne, Outcome.map_eq_throw]
      have h1 : (-1.0 : K) * r ≤ -1.0 * l := by norm_num; exact h
      have h2 : (0 : K) ≤ -1.0 * r := by norm_num; exact hr.le
      exact tnorm_left_right_nonneg_no_throw G m fuel _ _ h1 h2 s msg s'

theorem tnorm_left_right_invalid (G : Gsl K S) (m : CMath K) (fuel : Nat)
    (left right : Dbl K) (s : S) (h : left = nan ∨ right = nan ∨ right < left) :
    tnorm_left_right G m fuel left right s = .throw paramProblem s := by
  rcases h with h | h | h
  · subst h; exact tnorm_left_right_nan_left G m fuel right s
  · subst h; exact tnorm_left_right_nan_right G m fuel left s
  · cases left with
    | nan => exact tnorm_left_right_nan_left G m fuel right s
    | fin l =>
      cases right with
      | nan => exact tnorm_left_right_nan_right G m fuel _ s
      | fin r => exact tnorm_left_right_lt G m fuel l r h s

theorem Dbl.mul_swap (a b : Dbl K) : a * b = b * a := by
  cases a <;> cases b <;> simp [mul_comm]

end Branches

/-! ## Parameter validation -/

section Validation

variable {K S : Type} [LinearOrderedField K]

theorem Dbl.radd_id (a b : Dbl K) : radd (fun x => x) a b = a + b := by
  cases a <;> cases b <;> rfl

theorem Dbl.rsub_id (a b : Dbl K) : rsub (fun x => x) a b = a - b := by
  cases a <;> cases b <;> rfl

theorem Dbl.rmul_id (a b : Dbl K) : rmul (fun x => x) a b = a * b := by
  cases a <;> cases b <;> rfl

theorem Dbl.rdiv_id (a b : Dbl K) : rdiv (fun x => x) a b = a / b := by
  cases a <;> cases b <;> rfl

theorem standardized_nan (r : K → K) (mu sd : Dbl K) : standardized r nan mu sd = nan := rfl

/-- With exact arithmetic the rounded shifted entry point is the shifted
entry point. -/
theorem tnorm_left_right_mu_sd_rounded_id (G : Gsl K S) (m : CMath K) (fuel : Nat)
    (left right mu sd : Dbl K) (s : S) :
    tnorm_left_right_mu_sd_rounded (fun x => x) G m fuel left right mu sd s
      = tnorm_left_right_mu_sd G m fuel left right mu sd s := by
  simp only [tnorm_left_right_mu_sd_rounded, tnorm_left_right_mu_sd, standardized,
    Dbl.radd_id, Dbl.rsub_id, Dbl.rmul_id, Dbl.rdiv_id]

/-- The two sided sampler throws exactly on a NaN bound or an inverted
interval, with the parameter problem error and in the state of the call. -/
theorem tnorm_left_right_throw_iff (G : Gsl K S) (m : CMath K) (fuel : Nat)
    (left right : Dbl K) (s : S) (msg : String) (s' : S) :
    tnorm_left_right G m fuel left right s = .throw msg s' ↔
      (left = nan ∨ right = nan ∨ right < left) ∧ msg = paramProblem ∧ s' = s := by
  constructor
  · intro h
    have key : left = nan ∨ right = nan ∨ right < left := by
      cases left with
      | nan => exact Or.inl rfl
      | fin l =>
        cases right with
        | nan => exact Or.inr (Or.inl rfl)
        | fin r =>
          rcases lt_or_le r l with hlt | hle
          · exact Or.inr (Or.inr hlt)
          · exact absurd h (tnorm_left_right_no_throw G m fuel l r hle s msg s')
    have h2 := tnorm_left_right_invalid G m fuel left right s key
    rw [h2] at h
    injection h with e1 e2
    exact ⟨key, e1.symm, e2.symm⟩
  · rintro ⟨key, h1, h2⟩
    rw [h1, h2]
    exact tnorm_left_right_invalid G m fuel left right s key

/-- The rounded shifted entry point throws exactly when the standardized
bounds it computed are NaN or inverted. -/
theorem tnorm_left_right_mu_sd_rounded_throw_iff (r : K → K) (G : Gsl K S) (m : CMath K)
    (fuel : Nat) (left right mu sd : Dbl K) (s : S) (msg : String) (s' : S) :
    tnorm_left_right_mu_sd_rounded r G m fuel left right mu sd s = .throw msg s' ↔
      (standardized r left mu sd = nan ∨ standardized r right mu sd = nan ∨
        standardized r right mu sd < standardized r left mu sd) ∧
      msg = paramProblem ∧ s' = s := by
  rw [tnorm_left_right_mu_sd_rounded]
  simp only []
  split
  · rename_i hlt
    constructor
    · intro h
      injection h with e1 e2
      exact ⟨Or.inr (Or.inr hlt), e1.symm, e2.symm⟩
    · rintro ⟨-, h1, h2⟩
      rw [h1, h2]
  · rw [← tnorm_left_right_throw_iff G m fuel _ _ s msg s']
    cases tnorm_left_right G m fuel (standardized r left mu sd)
        (standardized r right mu sd) s with
    | ret x t => simp
    | throw msg1 t => exact Iff.rfl
    | spin => simp
    | overflow => simp

/-- Under a monotone rounding the standardization of an inverted interval with
`sd > 0` is inverted or collapsed. -/
theorem standardized_le_of_lt (r : K → K) (hr : Monotone r) (l rt c d : K) (h : rt < l)
    (hd : 0 < d) :
    standardized r (fin rt) (fin c) (fin d) < standardized r (fin l) (fin c) (fin d) ∨
    standardized r (fin rt) (fin c) (fin d) = standardized r (fin l) (fin c) (fin d) := by
  have hd0 : d ≠ 0 := ne_of_gt hd
  have h1 : r (rt - c) ≤ r (l - c) := hr (sub_le_sub_right h.le c)
  have h2 : r (rt - c) / d ≤ r (l - c) / d := div_le_div_of_nonneg_right h1 hd.le
  have h3 : r (r (rt - c) / d) ≤ r (r (l - c) / d) := hr h2
  have e1 : standardized r (fin rt) (fin c) (fin d) = fin (r (r (rt - c) / d)) := by
    simp only [standardized, rsub, rdiv, if_neg hd0]
  have e2 : standardized r (fin l) (fin c) (fin d) = fin (r (r (l - c) / d)) := by
    simp only [standardized, rsub, rdiv, if_neg hd0]
  rw [e1, e2]
  rcases lt_or_eq_of_le h3 with h4 | h4
  · exact Or.inl h4
  · exact Or.inr (by rw [h4])

/-- C3 (as amended): `tnorm(left, right)` throws if and only if `left` is NaN,
`right` is NaN or `right < left`, and then it throws the parameter problem
error in the generator state of the call (no draw has been made).  The
shifted `tnorm(left, right, mu, sd)`, with its arithmetic rounded by any `r`,
throws if and only if a standardized bound it computed is NaN or the
standardized bounds are inverted, and then it throws the same error in the
generator state of the call; it does so on every NaN bound; and for
`right < left`, `sd > 0` under a monotone rounding it throws unless the two
standardized bounds are equal.  With the identity for `r` this is the exact
shifted entry point. -/
theorem tnorm_invalid_parameter (G : Gsl K S) (m : CMath K) (fuel : Nat) (r : K → K)
    (left right mu sd : Dbl K) (s : S) :
    ((∃ msg s', tnorm_left_right G m fuel left right s = .throw msg s') ↔
        (left = nan ∨ right = nan ∨ right < left)) ∧
    (∀ msg s', tnorm_left_right G m fuel left right s = .throw msg s' →
        msg = paramProblem ∧ s' = s) ∧
    ((∃ msg s', tnorm_left_right_mu_sd_rounded r G m fuel left right mu sd s
          = .throw msg s') ↔
        (standardized r left mu sd = nan ∨ standardized r right mu sd = nan ∨
          standardized r right mu sd < standardized r left mu sd)) ∧
    (∀ msg s', tnorm_left_right_mu_sd_rounded r G m fuel left right mu sd s
          = .throw msg s' → msg = paramProblem ∧ s' = s) ∧
    ((left = nan ∨ right = nan) →
        tnorm_left_right_mu_sd_rounded r G m fuel left right mu sd s
          = .throw paramProblem s) ∧
    (Monotone r → ∀ l rt d : K, left = fin l → right = fin rt → sd = fin d →
        rt < l → 0 < d →
        tnorm_left_right_mu_sd_rounded r G m fuel left right mu sd s
            = .throw paramProblem s ∨
          standardized r right mu sd = standardized r left mu sd) ∧
    tnorm_left_right_mu_sd_rounded (fun x => x) G m fuel left right mu sd s
      = tnorm_left_right_mu_sd G m fuel left right mu sd s := by
  have hthrow : ∀ (a b : Dbl K), (a = nan ∨ b = nan ∨
        standardized r b mu sd < standardized r a mu sd) →
      (standardized r a mu sd = nan ∨ standardized r b mu sd = nan ∨
        standardized r b mu sd < standardized r a mu sd) := by
    intro a b h
    rcases h with h | h | h
    · subst h; exact Or.inl rfl
    · subst h; exact Or.inr (Or.inl rfl)
    · exact Or.inr (Or.inr h)
  refine ⟨⟨?_, ?_⟩, ?_, ⟨?_, ?_⟩, ?_, ?_, ?_,
    tnorm_left_right_mu_sd_rounded_id G m fuel left right mu sd s⟩
  · rintro ⟨msg, s', h⟩
    exact ((tnorm_left_right_throw_iff G m fuel left right s msg s').mp h).1
  · intro h
    exact ⟨_, _, tnorm_left_right_invalid G m fuel left right s h⟩
  · intro msg s' h
    exact ((tnorm_left_right_throw_iff G m fuel left right s msg s').mp h).2
  · rintro ⟨msg, s', h⟩
    exact ((tnorm_left_right_mu_sd_rounded_throw_iff r G m fuel left right mu sd s
      msg s').mp h).1
  · intro h
    exact ⟨paramProblem, s, (tnorm_left_right_mu_sd_rounded_throw_iff r G m fuel left right
      mu sd s _ _).mpr ⟨h, rfl, rfl⟩⟩
  · intro msg s' h
    exact ((tnorm_left_right_mu_sd_rounded_throw_iff r G m fuel left right mu sd s
      msg s').mp h).2
  · intro h
    have h' : standardized r left mu sd = nan ∨ standardized r right mu sd = nan ∨
        standardized r right mu sd < standardized r left mu sd := by
      rcases h with h | h
      · exact hthrow left right (Or.inl h)
      · exact hthrow left right (Or.inr (Or.inl h))
    exact (tnorm_left_right_mu_sd_rounded_throw_iff r G m fuel left right mu sd s
      _ _).mpr ⟨h', rfl, rfl⟩
  · intro hr l rt d hl hrt hd hlt hpos
    subst hl hrt hd
    cases mu with
    | nan =>
      left
      exact (tnorm_left_right_mu_sd_rounded_throw_iff r G m fuel _ _ _ _ s
        _ _).mpr ⟨Or.inl (by simp [standardized, rsub, rdiv]), rfl, rfl⟩
    | fin c =>
      rcases standardized_le_of_lt r hr l rt c d hlt hpos with h | h
      · left
        exact (tnorm_left_right_mu_sd_rounded_throw_iff r G m fuel _ _ _ _ s
          _ _).mpr ⟨Or.inr (Or.inr h), rfl, rfl⟩
      · right
        exact h

theorem log_two_eq (x : ℚ) (e : ℤ) (h1 : (2 : ℚ) ^ e ≤ x) (h2 : x < (2 : ℚ) ^ (e + 1)) :
    Int.log 2 x = e := by
  have hpos : 0 < x := lt_of_lt_of_le (by positivity) h1
  have hb : 1 < 2 := by norm_num
  apply le_antisymm
  · have h := (Int.lt_zpow_iff_log_lt hb hpos).mp (by exact_mod_cast h2)
    omega
  · exact (Int.zpow_le_iff_le_log hb hpos).mp (by exact_mod_cast h1)

theorem roundHalfEven_int (z : ℤ) : roundHalfEven (z : ℚ) = z := by
  simp [roundHalfEven]

theorem roundHalfEven_half (z : ℤ) (h : z % 2 = 0) :
    roundHalfEven ((z : ℚ) + 1 / 2) = z := by
  have hf : ⌊(z : ℚ) + 1 / 2⌋ = z := by
    rw [Int.floor_eq_iff]
    constructor <;> norm_num
  simp only [roundHalfEven, hf]
  have e : (z : ℚ) + 1 / 2 - z = 1 / 2 := by ring
  rw [e]
  simp [h]

/-- The rounding of a positive rational of the binade `[2^e, 2^(e+1))`. -/
theorem binary64_eq (x : ℚ) (e : ℤ) (h1 : (2 : ℚ) ^ e ≤ x) (h2 : x < (2 : ℚ) ^ (e + 1))
    (he : -1022 ≤ e) :
    binary64 x = (roundHalfEven (x / 2 ^ (e - 52)) : ℚ) * 2 ^ (e - 52) := by
  have hpos : 0 < x := lt_of_lt_of_le (by positivity) h1
  have hl : Int.log 2 |x| = e := by rw [abs_of_pos hpos]; exact log_two_eq x e h1 h2
  simp only [binary64, if_neg hpos.ne', hl, max_eq_left he]

theorem binary64_two : binary64 2 = 2 := by
  rw [binary64_eq 2 1 (by norm_num) (by norm_num) (by norm_num)]
  have e : (2 : ℚ) / 2 ^ ((1 : ℤ) - 52) = ((4503599627370496 : ℤ) : ℚ) := by norm_num
  rw [e, roundHalfEven_int]
  norm_num

theorem binary64_one : binary64 1 = 1 := by
  rw [binary64_eq 1 0 (by norm_num) (by norm_num) (by norm_num)]
  have e : (1 : ℚ) / 2 ^ ((0 : ℤ) - 52) = ((4503599627370496 : ℤ) : ℚ) := by norm_num
  rw [e, roundHalfEven_int]
  norm_num

/-- The number `2 + 2^-52` lies half way between the doubles `2` and
`2 + 2^-51` and is rounded to the even one. -/
theorem binary64_two_tie : binary64 (2 + 1 / 2 ^ 52) = 2 := by
  rw [binary64_eq _ 1 (by norm_num) (by norm_num) (by norm_num)]
  have e : (2 + 1 / 2 ^ 52 : ℚ) / 2 ^ ((1 : ℤ) - 52)
      = ((4503599627370496 : ℤ) : ℚ) + 1 / 2 := by
    norm_num
  rw [e, roundHalfEven_half _ (by norm_num)]
  norm_num

/-- The number `1 + 2^-52`, the double next above 1, is a double. -/
theorem binary64_one_next : binary64 (1 + 1 / 2 ^ 52) = 1 + 1 / 2 ^ 52 := by
  rw [binary64_eq _ 0 (by norm_num) (by norm_num) (by norm_num)]
  have e : (1 + 1 / 2 ^ 52 : ℚ) / 2 ^ ((0 : ℤ) - 52) = ((4503599627370497 : ℤ) : ℚ) := by
    norm_num
  rw [e, roundHalfEven_int]
  norm_num

/-- A run of the uniform regime on the collapsed interval `[2, 2]`. -/
theorem run_two_two :
    tnorm_left_right qGsl qMath 1 (fin 2) (fin 2) 0 = .ret (fin 2) 2 := by
  rw [tnorm_left_right_nonneg _ _ _ _ _ (by norm_num) (by norm_num)]
  simp [lowerbound, alphastar, qMath, qGsl, tnorm_flat_pos, flat, unif]
  norm_num

/-- C3 (counterexample): in binary64 arithmetic, `left = 1 + 2^-52` (the double
next above 1), `right = 1`, `mu = -1`, `sd = 1` have `right < left` and
`sd > 0`, but both standardized bounds are `2` (the difference `2 + 2^-52` is
rounded to `2`), the check `newright < newleft` does not fire, and on the
counting generator the shifted `tnorm` makes two draws and returns `1`. -/
theorem tnorm_shifted_inverted_returns :
    (1 : ℚ) < 1 + 1 / 2 ^ 52 ∧ (0 : ℚ) < 1 ∧
    binary64 (1 + 1 / 2 ^ 52) = 1 + 1 / 2 ^ 52 ∧
    standardized binary64 (fin (1 + 1 / 2 ^ 52)) (fin (-1)) (fin 1) = fin 2 ∧
    standardized binary64 (fin 1) (fin (-1)) (fin 1) = fin 2 ∧
    tnorm_left_right_mu_sd_rounded binary64 qGsl qMath 1 (fin (1 + 1 / 2 ^ 52)) (fin 1)
      (fin (-1)) (fin 1) 0 = .ret (fin 1) 2 := by
  have h10 : ¬ ((1 : ℚ) = 0) := by norm_num
  have e1 : standardized binary64 (fin (1 + 1 / 2 ^ 52)) (fin (-1)) (fin 1)
      = (fin 2 : Dbl ℚ) := by
    simp only [standardized, rsub, rdiv, if_neg h10]
    rw [show ((1 : ℚ) + 1 / 2 ^ 52 - -1) = 2 + 1 / 2 ^ 52 by ring, binary64_two_tie,
      show (2 : ℚ) / 1 = 2 by norm_num, binary64_two]
  have e2 : standardized binary64 (fin 1) (fin (-1)) (fin 1) = (fin 2 : Dbl ℚ) := by
    simp only [standardized, rsub, rdiv, if_neg h10]
    rw [show ((1 : ℚ) - -1) = 2 by norm_num, binary64_two,
      show (2 : ℚ) / 1 = 2 by norm_num, binary64_two]
  have e3 : radd binary64 (fin (-1)) (rmul binary64 (fin 2) (fin 1)) = (fin 1 : Dbl ℚ) := by
    simp only [radd, rmul]
    rw [show (2 : ℚ) * 1 = 2 by norm_num, binary64_two,
      show (-1 : ℚ) + 2 = 1 by norm_num, binary64_one]
  refine ⟨by norm_num, by norm_num, binary64_one_next, e1, e2, ?_⟩
  have hnot : ¬ ((fin 2 : Dbl ℚ) < fin 2) := by simp
  rw [tnorm_left_right_mu_sd_rounded]
  simp only [e1, e2, if_neg hnot, run_two_two, e3, ite_self]

/-- With exact arithmetic the shifted sampler throws on the inverted interval
`(5, 1)` with `mu = 3`, `sd = 2`, and the counting generator has not moved. -/
theorem tnorm_invalid_parameter_witness :
    tnorm_left_right_mu_sd_rounded (fun x => x) qGsl qMath 7 (fin 5) (fin 1) (fin 3)
        (fin 2) 0 = .throw paramProblem 0 ∨
      standardized (fun x => x) (fin 1) (fin 3) (fin 2)
        = standardized (fun x : ℚ => x) (fin 5) (fin 3) (fin 2) :=
  (tnorm_invalid_parameter qGsl qMath 7 (fun x => x) (fin 5) (fin 1) (fin 3) (fin 2)
    0).2.2.2.2.2.1 (fun _ _ h => h) 5 1 2 rfl rfl rfl (by norm_num) (by norm_num)

end Validation

/-! ## Symmetry and location-scale reductions -/

section Reductions

variable {K S : Type} [LinearOrderedField K]

/-- C4: for `left ≤ right < 0`, `tnorm(left, right)` is the negation of
`tnorm(-right, -left)` run from the same generator state: the two calls have
the same kind of outcome and end in the same generator state, and the value
of the first is minus the value of the second. -/
theorem tnorm_symmetry (G : Gsl K S) (m : CMath K) (fuel : Nat) (l r : K) (s : S)
    (h : l ≤ r) (hr : r < 0) :
    tnorm_left_right G m fuel (fin l) (fin r) s
      = Outcome.map (fun x => -x) (tnorm_left_right G m fuel (-(fin r)) (-(fin l)) s) ∧
    (∀ x s', tnorm_left_right G m fuel (-(fin r)) (-(fin l)) s = .ret x s' →
      tnorm_left_right G m fuel (fin l) (fin r) s = .ret (-x) s') ∧
    (∀ y s', tnorm_left_right G m fuel (fin l) (fin r) s = .ret y s' →
      ∃ x, tnorm_left_right G m fuel (-(fin r)) (-(fin l)) s = .ret x s' ∧ y = -x) := by
  have e : tnorm_left_right G m fuel (fin l) (fin r) s
      = Outcome.map (fun x => -x)
          (tnorm_left_right G m fuel (-(fin r)) (-(fin l)) s) := by
    rw [tnorm_left_right_neg G m fuel l r h hr s, Dbl.neg_one_times, Dbl.neg_one_times]
    congr 1
    funext x
    exact Dbl.neg_one_times x
  refine ⟨e, ?_, ?_⟩
  · intro x s' hx
    rw [e, hx]; rfl
  · intro y s' hy
    rw [e, Outcome.map_eq_ret] at hy
    obtain ⟨x, h1, h2⟩ := hy
    exact ⟨x, h1, h2.symm⟩

/-- C5: the shifted samplers are the specification's reductions:
`tnorm(left, mu, sd)` is `mu + sd * tnorm((left-mu)/sd)` and
`tnorm(left, right, mu, sd)` is `mu + sd * tnorm((left-mu)/sd, (right-mu)/sd)`,
as outcomes (value and generator state, or error and generator state, or no
return); the four argument form throws exactly when the standardized call
throws, with the same error. -/
theorem tnorm_location_scale (G : Gsl K S) (m : CMath K) (fuel : Nat)
    (left right mu sd : Dbl K) (s : S) :
    tnorm_left_mu_sd G m fuel left mu sd s
      = tnorm_left_mu_sd_reduced G m fuel left mu sd s ∧
    tnorm_left_right_mu_sd G m fuel left right mu sd s
      = tnorm_left_right_mu_sd_reduced G m fuel left right mu sd s ∧
    (∀ msg s', tnorm_left_right_mu_sd G m fuel left right mu sd s = .throw msg s' ↔
      tnorm_left_right G m fuel ((left - mu) / sd) ((right - mu) / sd) s
        = .throw msg s') := by
  have e1 : tnorm_left_mu_sd G m fuel left mu sd s
      = tnorm_left_mu_sd_reduced G m fuel left mu sd s := by
    unfold tnorm_left_mu_sd tnorm_left_mu_sd_reduced
    dsimp only
    congr 1
    funext x
    rw [Dbl.mul_swap]
  have e2 : tnorm_left_right_mu_sd G m fuel left right mu sd s
      = tnorm_left_right_mu_sd_reduced G m fuel left right mu sd s := by
    unfold tnorm_left_right_mu_sd tnorm_left_right_mu_sd_reduced
    dsimp only
    split
    · rename_i hlt
      rw [tnorm_left_right_invalid G m fuel _ _ s (Or.inr (Or.inr hlt))]
      rfl
    · cases tnorm_left_right G m fuel ((left - mu) / sd) ((right - mu) / sd) s with
      | ret x t => simp [Outcome.map, Dbl.mul_swap]
      | throw msg t => rfl
      | spin => rfl
      | overflow => rfl
  refine ⟨e1, e2, ?_⟩
  intro msg s'
  rw [e2, tnorm_left_right_mu_sd_reduced, Outcome.map_eq_throw]

/-- A run of the truncated exponential regime on the counting generator. -/
theorem run_two_five :
    tnorm_left_right qGsl qMath 1 (fin 2) (fin 5) 0 = .ret (fin 2) 2 := by
  rw [tnorm_left_right_nonneg _ _ _ _ _ (by norm_num) (by norm_num)]
  simp [lowerbound, alphastar, qMath, qGsl, tnorm_trunc_expon, tnorm_expon_draw,
    expon_rate, expon_mean, unif]
  norm_num

/-- On the counting generator `tnorm(-5, -2)` returns `-2` after two draws,
the negation of what `tnorm(2, 5)` returns after the same two draws. -/
theorem tnorm_symmetry_witness :
    tnorm_left_right qGsl qMath 1 (fin (-5)) (fin (-2)) 0 = .ret (fin (-2)) 2 := by
  have h := (tnorm_symmetry qGsl qMath 1 (-5) (-2) 0 (by norm_num) (by norm_num)).2.1
    (fin 2) 2 (by simp only [Dbl.neg_fin, neg_neg]; exact run_two_five)
  simpa using h

end Reductions

/-! ## The draws lie in the truncation interval -/

section Bounds

variable {K S : Type} [LinearOrderedField K]

theorem Dbl.lt_imp_le {a b : Dbl K} (h : a < b) : a ≤ b := by
  cases a with
  | nan => exact absurd h (Dbl.not_nan_lt _)
  | fin x =>
    cases b with
    | nan => exact absurd h (Dbl.not_lt_nan _)
    | fin y => exact (show x < y from h).le

theorem tnorm_left_normal_gt (G : Gsl K S) (left : Dbl K) (fuel : Nat) (s : S)
    (x : Dbl K) (s' : S) (h : tnorm_left_normal G left fuel s = .ret x s') : left < x := by
  induction fuel generalizing s with
  | zero => simp [tnorm_left_normal] at h
  | succ n ih =>
    rw [tnorm_left_normal] at h
    split at h
    · rename_i hgt
      injection h with e1 e2
      rw [← e1]; exact hgt
    · exact ih _ h

theorem alphastar_pos (m : CMath K) (hS : SqrtPos m) (l : K) (h0 : 0 ≤ l) :
    ∃ a, alphastar m (fin l) = fin a ∧ 0 < a := by
  obtain ⟨y, hy, hpos⟩ := hS (l + 4) (by linarith)
  refine ⟨0.5 * (l + y), ?_, ?_⟩
  · simp [alphastar, hy]
  · have : (0 : K) < l + y := by linarith
    have h5 : (0 : K) < 0.5 := by norm_num
    exact mul_pos h5 this

theorem expon_rate_nonneg (G : Gsl K S) (hE : ExponNonneg G) (a : K) (ha : 0 < a)
    (s : S) : ∃ e, (expon_rate G (fin a) s).1 = fin e ∧ 0 ≤ e := by
  have hne : a ≠ 0 := ne_of_gt ha
  have hpos : (0 : K) < 1.0 / a := by
    have : (0 : K) < 1.0 := by norm_num
    exact div_pos this ha
  obtain ⟨e, he, hnn⟩ := hE (1.0 / a) s hpos
  refine ⟨e, ?_, hnn⟩
  simp only [expon_rate, expon_mean, Dbl.fin_div, if_neg hne]
  exact he

theorem tnorm_left_expon_ge (G : Gsl K S) (m : CMath K) (hE : ExponNonneg G)
    (l a : K) (ha : 0 < a) (fuel : Nat) (s : S) (x : Dbl K) (s' : S)
    (h : tnorm_left_expon G m (fin l) (fin a) fuel s = .ret x s') : fin l ≤ x := by
  induction fuel generalizing s with
  | zero => simp [tnorm_left_expon] at h
  | succ n ih =>
    rw [tnorm_left_expon] at h
    obtain ⟨e, he, hnn⟩ := expon_rate_nonneg G hE a ha s
    split at h
    · injection h with e1 e2
      rw [← e1, he]
      show l ≤ e + l
      linarith
    · exact ih _ h

theorem tnorm_expon_draw_between (G : Gsl K S) (hE : ExponNonneg G)
    (l r a : K) (ha : 0 < a) (fuel : Nat) (s : S) (x : Dbl K) (s' : S)
    (h : tnorm_expon_draw G (fin l) (fin r) (fin a) fuel s = some (x, s')) :
    fin l ≤ x ∧ x ≤ fin r := by
  induction fuel generalizing s with
  | zero => simp [tnorm_expon_draw] at h
  | succ n ih =>
    rw [tnorm_expon_draw] at h
    obtain ⟨e, he, hnn⟩ := expon_rate_nonneg G hE a ha s
    split at h
    · exact ih _ h
    · rename_i hgt
      rw [he] at hgt
      injection h with h
      injection h with e1 e2
      rw [← e1, he]
      constructor
      · show l ≤ e + l
        linarith
      · show e + l ≤ r
        exact not_lt.mp hgt

theorem tnorm_trunc_expon_between (G : Gsl K S) (m : CMath K) (hE : ExponNonneg G)
    (l r a : K) (ha : 0 < a) (fuel : Nat) (s : S) (x : Dbl K) (s' : S)
    (h : tnorm_trunc_expon G m (fin l) (fin r) (fin a) fuel s = .ret x s') :
    fin l ≤ x ∧ x ≤ fin r := by
  induction fuel generalizing s with
  | zero => simp [tnorm_trunc_expon] at h
  | succ n ih =>
    rw [tnorm_trunc_expon] at h
    cases hd : tnorm_expon_draw G (fin l) (fin r) (fin a) (n + 1) s with
    | none => rw [hd] at h; simp at h
    | some p =>
      obtain ⟨ppsl, s1⟩ := p
      rw [hd] at h
      dsimp only at h
      split at h
      · injection h with e1 e2
        rw [← e1]
        exact tnorm_expon_draw_between G hE l r a ha (n + 1) s ppsl s1 hd
      · exact ih _ h

theorem tnorm_flat_pos_between (G : Gsl K S) (m : CMath K) (hF : FlatBetween G)
    (l r : K) (hlr : l ≤ r) (fuel : Nat) (s : S) (x : Dbl K) (s' : S)
    (h : tnorm_flat_pos G m (fin l) (fin r) fuel s = .ret x s') :
    fin l ≤ x ∧ x ≤ fin r := by
  induction fuel generalizing s with
  | zero => simp [tnorm_flat_pos] at h
  | succ n ih =>
    rw [tnorm_flat_pos] at h
    obtain ⟨v, hv, h1, h2⟩ := hF l r s hlr
    split at h
    · injection h with e1 e2
      rw [← e1]
      show fin l ≤ (flat G (fin l) (fin r) s).1 ∧ (flat G (fin l) (fin r) s).1 ≤ fin r
      rw [flat, hv]
      exact ⟨h1, h2⟩
    · exact ih _ h

theorem tnorm_flat_zero_between (G : Gsl K S) (m : CMath K) (hF : FlatBetween G)
    (l r : K) (hlr : l ≤ r) (fuel : Nat) (s : S) (x : Dbl K) (s' : S)
    (h : tnorm_flat_zero G m (fin l) (fin r) fuel s = .ret x s') :
    fin l ≤ x ∧ x ≤ fin r := by
  induction fuel generalizing s with
  | zero => simp [tnorm_flat_zero] at h
  | succ n ih =>
    rw [tnorm_flat_zero] at h
    obtain ⟨v, hv, h1, h2⟩ := hF l r s hlr
    split at h
    · injection h with e1 e2
      rw [← e1]
      show fin l ≤ (flat G (fin l) (fin r) s).1 ∧ (flat G (fin l) (fin r) s).1 ≤ fin r
      rw [flat, hv]
      exact ⟨h1, h2⟩
    · exact ih _ h

theorem tnorm_normal_both_between (G : Gsl K S) (left right : Dbl K) (fuel : Nat)
    (s : S) (x : Dbl K) (s' : S)
    (h : tnorm_normal_both G left right fuel s = .ret x s') :
    left < x ∧ x < right := by
  induction fuel generalizing s with
  | zero => simp [tnorm_normal_both] at h
  | succ n ih =>
    rw [tnorm_normal_both] at h
    split at h
    · rename_i hb
      injection h with e1 e2
      rw [← e1]; exact hb
    · exact ih _ h

theorem tnorm_left_right_nonneg_between (G : Gsl K S) (m : CMath K)
    (hE : ExponNonneg G) (hF : FlatBetween G) (hS : SqrtPos m) (fuel : Nat)
    (l r : K) (h : l ≤ r) (h0 : 0 ≤ l) (s : S) (x : Dbl K) (s' : S)
    (hx : tnorm_left_right G m fuel (fin l) (fin r) s = .ret x s') :
    fin l ≤ x ∧ x ≤ fin r := by
  rw [tnorm_left_right_nonneg G m fuel l r h h0 s] at hx
  split at hx
  · obtain ⟨a, ha, hpos⟩ := alphastar_pos m hS l h0
    rw [ha] at hx
    exact tnorm_trunc_expon_between G m hE l r a hpos fuel s x s' hx
  · exact tnorm_flat_pos_between G m hF l r h fuel s x s' hx

/-- C2: on a generator whose exponential draws are non-negative numbers and
whose flat draws on `[a, b]` lie in `[a, b]` (and with a square root that is
positive on positive numbers), every value `x` returned by `tnorm(left)` for
a number `left` satisfies `left <= x`, and every value `x` returned by
`tnorm(left, right)` for numbers `left ≤ right` satisfies
`left <= x <= right`, in every regime. -/
theorem tnorm_within_bounds (G : Gsl K S) (m : CMath K)
    (hE : ExponNonneg G) (hF : FlatBetween G) (hS : SqrtPos m) :
    (∀ (fuel : Nat) (left : K) (s : S) (x : Dbl K) (s' : S),
      tnorm_left G m fuel (fin left) s = .ret x s' → fin left ≤ x) ∧
    (∀ (fuel : Nat) (left right : K) (s : S) (x : Dbl K) (s' : S), left ≤ right →
      tnorm_left_right G m fuel (fin left) (fin right) s = .ret x s' →
        fin left ≤ x ∧ x ≤ fin right) := by
  constructor
  · intro fuel left s x s' h
    rw [tnorm_left] at h
    split at h
    · exact Dbl.lt_imp_le (tnorm_left_normal_gt G _ fuel s x s' h)
    · rename_i hneg
      have h0 : 0 ≤ left := not_lt.mp hneg
      obtain ⟨a, ha, hpos⟩ := alphastar_pos m hS left h0
      dsimp only at h
      rw [ha] at h
      exact tnorm_left_expon_ge G m hE left a hpos fuel s x s' h
  · intro fuel l r s x s' h hx
    rcases le_or_lt 0 l with h0 | h0
    · exact tnorm_left_right_nonneg_between G m hE hF hS fuel l r h h0 s x s' hx
    · rcases le_or_lt 0 r with hr | hr
      · rw [tnorm_left_right_straddle G m fuel l r h0 hr s] at hx
        split at hx
        · exact tnorm_flat_zero_between G m hF l r h fuel s x s' hx
        · obtain ⟨h1, h2⟩ := tnorm_normal_both_between G _ _ fuel s x s' hx
          exact ⟨Dbl.lt_imp_le h1, Dbl.lt_imp_le h2⟩
      · rw [tnorm_left_right_neg G m fuel l r h hr s, Outcome.map_eq_ret] at hx
        obtain ⟨y, hy, hxy⟩ := hx
        have h1 : (-1.0 : K) * r ≤ -1.0 * l := by norm_num; exact h
        have h2 : (0 : K) ≤ -1.0 * r := by norm_num; exact hr.le
        obtain ⟨b1, b2⟩ :=
          tnorm_left_right_nonneg_between G m hE hF hS fuel _ _ h1 h2 s y s' hy
        cases y with
        | nan => exact absurd b1 (Dbl.not_le_nan _)
        | fin v =>
          have c1 : -1.0 * r ≤ v := b1
          have c2 : v ≤ -1.0 * l := b2
          rw [← hxy]
          constructor
          · show l ≤ -1.0 * v
            norm_num at c2 ⊢
            linarith
          · show -1.0 * v ≤ r
            norm_num at c1 ⊢
            linarith

theorem qGsl_exponNonneg : ExponNonneg qGsl := by
  intro mu n hmu
  refine ⟨mu * n, rfl, ?_⟩
  have : (0 : ℚ) ≤ n := Nat.cast_nonneg n
  exact mul_nonneg hmu.le this

theorem qGsl_flatBetween : FlatBetween qGsl := by
  intro a b n hab
  refine ⟨a + (b - a) * (1 / ((n : ℚ) + 1)), rfl, ?_, ?_⟩
  · have h1 : (0 : ℚ) ≤ 1 / ((n : ℚ) + 1) := by positivity
    have h2 : (0 : ℚ) ≤ b - a := by linarith
    nlinarith [mul_nonneg h2 h1]
  · have h0 : (0 : ℚ) ≤ n := Nat.cast_nonneg n
    have h1 : 1 / ((n : ℚ) + 1) ≤ 1 := by
      rw [div_le_one (by linarith)]; linarith
    have h2 : (0 : ℚ) ≤ b - a := by linarith
    nlinarith [mul_le_mul_of_nonneg_left h1 h2]

theorem qMath_sqrtPos : SqrtPos qMath := by
  intro x hx
  refine ⟨(1 + x) / 2, ?_, by linarith⟩
  simp [qMath, not_lt.mpr hx.le]

/-- A run of the one sided sampler on the counting generator, from state 1. -/
theorem run_left_one :
    tnorm_left qGsl qMath 1 (fin 1) 1 = .ret (fin (3 / 2)) 3 := by
  simp [tnorm_left, tnorm_left_expon, alphastar, qMath, qGsl, expon_rate, expon_mean, unif]
  norm_num

/-- A run of the uniform regime around zero on the counting generator. -/
theorem run_around_zero :
    tnorm_left_right qGsl qMath 1 (fin (-1)) (fin 1) 1 = .ret (fin 0) 3 := by
  rw [tnorm_left_right_straddle _ _ _ _ _ (by norm_num) (by norm_num)]
  simp [SQRT2PI, tnorm_flat_zero, qMath, qGsl, flat, unif]
  norm_num

/-- On the counting generator `tnorm(1)` returns `3/2 ≥ 1` and `tnorm(-1, 1)`
returns `0`, which lies in `[-1, 1]`. -/
theorem tnorm_within_bounds_witness :
    (fin 1 : Dbl ℚ) ≤ fin (3 / 2) ∧
    ((fin (-1) : Dbl ℚ) ≤ fin 0 ∧ (fin 0 : Dbl ℚ) ≤ fin 1) :=
  ⟨(tnorm_within_bounds qGsl qMath qGsl_exponNonneg qGsl_flatBetween qMath_sqrtPos).1
      1 1 1 (fin (3 / 2)) 3 run_left_one,
   (tnorm_within_bounds qGsl qMath qGsl_exponNonneg qGsl_flatBetween qMath_sqrtPos).2
      1 (-1) 1 1 (fin 0) 3 (by norm_num) run_around_zero⟩

end Bounds

/-! ## Right truncated gamma: scaling and range -/

section GammaRange

variable {K S : Type} [LinearOrderedField K]

theorem Dbl.mul_one_fin (a : Dbl K) : a * fin 1 = a := by
  cases a <;> simp

theorem Dbl.one_mul_fin (a : Dbl K) : fin 1 * a = a := by
  cases a <;> simp

theorem Outcome.map_map {α S : Type} (f g : α → α) (o : Outcome α S) :
    Outcome.map f (Outcome.map g o) = Outcome.map (fun x => f (g x)) o := by
  cases o <;> rfl

/-- C6: `rtgamma_rate(shape, rate, right_t)` is `right_t` times
`rtgamma_rate(shape, rate*right_t, 1)` run from the same generator state: the
two calls compute the same `b` and the same `p` (hence take the same
branch), and their outcomes agree in kind and in final generator state. -/
theorem rtgamma_rate_scale (G : Gsl K S) (m : CMath K) (fuel : Nat)
    (shape rate right_t : Dbl K) (s : S) :
    rate * right_t * fin 1 = rate * right_t ∧
    p_gamma_rate m (fin 1) shape (rate * right_t * fin 1) false
      = p_gamma_rate m (fin 1) shape (rate * right_t) false ∧
    rtgamma_rate G m fuel shape rate right_t s
      = Outcome.map (fun y => right_t * y)
          (rtgamma_rate G m fuel shape (rate * right_t) (fin 1) s) := by
  refine ⟨Dbl.mul_one_fin _, by rw [Dbl.mul_one_fin], ?_⟩
  unfold rtgamma_rate
  simp only [Dbl.mul_one_fin, Outcome.map_map, Dbl.one_mul_fin]

theorem gamma_rate_pos (G : Gsl K S) (hG : GammaPos G) (a b : K) (ha : 0 < a)
    (hb : 0 < b) (s : S) : ∃ g, (gamma_rate G (fin a) (fin b) s).1 = fin g ∧ 0 < g := by
  have hne : b ≠ 0 := ne_of_gt hb
  have hpos : (0 : K) < 1.0 / b := by
    have : (0 : K) < 1.0 := by norm_num
    exact div_pos this hb
  obtain ⟨g, hg, hgp⟩ := hG a (1.0 / b) s ha hpos
  refine ⟨g, ?_, hgp⟩
  simp only [gamma_rate, gamma_scale, Dbl.fin_div, if_neg hne]
  exact hg

theorem right_tgamma_reject_loop_range (G : Gsl K S) (hG : GammaPos G) (a b : K)
    (ha : 0 < a) (hb : 0 < b) (fuel : Nat) (v : K) (hv : 0 < v) (s : S)
    (y : Dbl K) (s' : S)
    (h : right_tgamma_reject_loop G (fin a) (fin b) fuel (fin v) s = .ret y s') :
    ∃ g, y = fin g ∧ 0 < g ∧ g ≤ 1 := by
  induction fuel generalizing v s with
  | zero => simp [right_tgamma_reject_loop] at h
  | succ n ih =>
    rw [right_tgamma_reject_loop] at h
    split at h
    · obtain ⟨g, hg, hgp⟩ := gamma_rate_pos G hG a b ha hb s
      dsimp only at h
      rw [hg] at h
      exact ih g hgp _ h
    · rename_i hgt
      injection h with e1 e2
      refine ⟨v, e1.symm, hv, ?_⟩
      have : ¬ ((1.0 : K) < v) := hgt
      have h1 : v ≤ 1.0 := not_lt.mp this
      norm_num at h1
      exact h1

theorem right_tgamma_beta_loop_ge (m : CMath K) (a b u : Dbl K) (fuel k : Nat)
    (cdf : Dbl K) (k' : Nat) (h : right_tgamma_beta_loop m a b u fuel k cdf = .ret k' ()) :
    k ≤ k' := by
  induction fuel generalizing k cdf with
  | zero => simp [right_tgamma_beta_loop] at h
  | succ n ih =>
    rw [right_tgamma_beta_loop] at h
    split at h
    · split at h
      · simp at h
      · exact le_trans (Nat.le_succ k) (ih _ _ h)
    · injection h with e1 e2
      exact le_of_eq e1

/-- Every value returned by the Beta series method is a draw of `beta(a, k)`
for some `k ≥ 1`, made right after the uniform draw. -/
theorem right_tgamma_beta_ret (G : Gsl K S) (m : CMath K) (fuel : Nat) (a b : Dbl K)
    (s : S) (x : Dbl K) (s' : S) (h : right_tgamma_beta G m fuel a b s = .ret x s') :
    ∃ k : Nat, 1 ≤ k ∧
      right_tgamma_beta_loop m a b (unif G s).1 fuel 1 (omega_k m 1 a b) = .ret k () ∧
      x = (beta G a (fin (k : K)) (unif G s).2).1 ∧
      s' = (beta G a (fin (k : K)) (unif G s).2).2 := by
  rw [right_tgamma_beta] at h
  dsimp only at h
  cases hl : right_tgamma_beta_loop m a b (unif G s).1 fuel 1 (omega_k m 1 a b) with
  | ret k t =>
    rw [hl] at h
    dsimp only at h
    injection h with e1 e2
    exact ⟨k, right_tgamma_beta_loop_ge m a b _ fuel 1 _ k hl, rfl, e1.symm, e2.symm⟩
  | throw msg t => rw [hl] at h; simp at h
  | spin => rw [hl] at h; simp at h
  | overflow => rw [hl] at h; simp at h

/-- C7 (as amended): for numbers `shape > 0`, `rate > 0`, `right_t > 0`, on a
generator whose gamma draws are positive numbers and whose beta draws are
numbers of `[0, 1]`, every value `x` returned by
`rtgamma_rate(shape, rate, right_t)` lies in `[0, right_t]`, in the direct
rejection branch and in the Beta series branch alike. -/
theorem rtgamma_rate_range (G : Gsl K S) (m : CMath K) (hG : GammaPos G)
    (hB : BetaUnit G) (fuel : Nat) (shape rate right_t : K) (hs : 0 < shape)
    (hr : 0 < rate) (ht : 0 < right_t) (s : S) (x : Dbl K) (s' : S)
    (h : rtgamma_rate G m fuel (fin shape) (fin rate) (fin right_t) s = .ret x s') :
    fin 0 ≤ x ∧ x ≤ fin right_t := by
  have hb : 0 < rate * right_t := mul_pos hr ht
  rw [rtgamma_rate] at h
  rw [Outcome.map_eq_ret] at h
  obtain ⟨y, hy, hxy⟩ := h
  by_cases hp : p_gamma_rate m (fin 1) (fin shape) (fin rate * fin right_t) false > fin 0.95
  · rw [if_pos hp, right_tgamma_reject] at hy
    have h2 : (0 : K) < 2.0 := by norm_num
    obtain ⟨g, hg, hg0, hg1⟩ :=
      right_tgamma_reject_loop_range G hG shape (rate * right_t) hs hb fuel 2.0 h2 s y s' hy
    rw [← hxy, hg]
    constructor
    · show 0 ≤ right_t * g
      exact mul_nonneg ht.le hg0.le
    · show right_t * g ≤ right_t
      exact mul_le_of_le_one_right ht.le hg1
  · rw [if_neg hp] at hy
    obtain ⟨k, hk, -, hx, -⟩ := right_tgamma_beta_ret G m fuel _ _ s y s' hy
    have hkpos : (0 : K) < (k : K) := by
      have : 0 < k := hk
      exact_mod_cast this
    obtain ⟨v, hv, hv0, hv1⟩ := hB shape (k : K) (unif G s).2 hs hkpos
    rw [beta, hv] at hx
    rw [← hxy, hx]
    constructor
    · show 0 ≤ right_t * v
      exact mul_nonneg ht.le hv0
    · show right_t * v ≤ right_t
      exact mul_le_of_le_one_right ht.le hv1

theorem qGsl_gammaPos : GammaPos qGsl := by
  intro a b n ha hb
  refine ⟨a * b * (40 / ((n : ℚ) + 1)), rfl, ?_⟩
  have h0 : (0 : ℚ) ≤ n := Nat.cast_nonneg n
  have h1 : (0 : ℚ) < 40 / ((n : ℚ) + 1) := by positivity
  exact mul_pos (mul_pos ha hb) h1

theorem qGsl_betaUnit : BetaUnit qGsl := by
  intro a b n ha hb
  have hne : a + b ≠ 0 := by linarith
  refine ⟨a / (a + b), ?_, ?_, ?_⟩
  · simp [qGsl, hne]
  · exact div_nonneg ha.le (by linarith)
  · rw [div_le_one (by linarith)]; linarith

theorem qGslBetaZero_gammaPos : GammaPos qGslBetaZero := qGsl_gammaPos

theorem qGslBetaZero_betaUnit : BetaUnit qGslBetaZero := by
  intro a b n _ _
  exact ⟨0, rfl, le_refl 0, zero_le_one⟩

/-- A run of the direct rejection branch on the counting generator: the first
gamma draw is 2, the second is 1. -/
theorem run_gamma_reject :
    rtgamma_rate qGsl qMath 3 (fin 1) (fin 10) (fin 2) 0 = .ret (fin 2) 2 := by
  simp [rtgamma_rate, p_gamma_rate, right_tgamma_reject, right_tgamma_reject_loop,
    gamma_rate, gamma_scale, qMath, qGsl, Outcome.map]
  norm_num

/-- The direct rejection branch is the one taken by `run_gamma_reject`. -/
theorem run_gamma_reject_p :
    p_gamma_rate qMath (fin 1) (fin 1) (fin 10 * fin 2) false > fin 0.95 := by
  simp [p_gamma_rate, qMath]
  norm_num

/-- C7 (counterexample): with `shape = rate = right_t = 1`, on a generator whose
gamma draws are positive and whose beta draws lie in `[0, 1]`, the Beta series
branch of `rtgamma_rate` returns 0, which is not in `(0, 1]`. -/
theorem rtgamma_rate_returns_zero :
    GammaPos qGslBetaZero ∧ BetaUnit qGslBetaZero ∧
    rtgamma_rate qGslBetaZero qMath 1 (fin 1) (fin 1) (fin 1) 0 = .ret (fin 0) 2 ∧
    ¬ ((fin 0 : Dbl ℚ) < fin 0 ∧ (fin 0 : Dbl ℚ) ≤ fin 1) := by
  refine ⟨qGslBetaZero_gammaPos, qGslBetaZero_betaUnit, ?_, ?_⟩
  · simp [rtgamma_rate, p_gamma_rate, right_tgamma_beta, right_tgamma_beta_loop, omega_k,
      Gamma, unif, beta, qMath, qGsl, qGslBetaZero, Outcome.map]
    norm_num
  · simp

/-- On the counting generator `rtgamma_rate(1, 10, 2)` takes the direct
rejection branch and returns 2, which lies in `[0, 2]`. -/
theorem rtgamma_rate_range_witness :
    (fin 0 : Dbl ℚ) ≤ fin 2 ∧ (fin 2 : Dbl ℚ) ≤ fin 2 :=
  rtgamma_rate_range qGsl qMath qGsl_gammaPos qGsl_betaUnit 3 1 10 2 (by norm_num)
    (by norm_num) (by norm_num) 0 (fin 2) 2 run_gamma_reject

end GammaRange

/-! ## Right truncated gamma: the choice of the strategy -/

section Strategy

variable {K S : Type} [LinearOrderedField K]

theorem gammaState_shift (G : Gsl K S) (a b : Dbl K) (s : S) (n : Nat) :
    gammaState G a b s (n + 1) = gammaState G a b (gamma_rate G a b s).2 n := by
  induction n with
  | zero => rfl
  | succ k ih =>
    show (gamma_rate G a b (gammaState G a b s (k + 1))).2
      = (gamma_rate G a b (gammaState G a b (gamma_rate G a b s).2 k)).2
    rw [ih]

theorem gammaDraw_shift (G : Gsl K S) (a b : Dbl K) (s : S) (n : Nat) :
    gammaDraw G a b s (n + 1) = gammaDraw G a b (gamma_rate G a b s).2 n := by
  unfold gammaDraw
  rw [gammaState_shift]

/-- What the rejection loop returns when entered with an `x > 1`: the first
draw on which `x > 1` is false, all earlier draws being `> 1`. -/
theorem right_tgamma_reject_loop_sound (G : Gsl K S) (a b : Dbl K) (fuel : Nat)
    (x0 : Dbl K) (hx0 : x0 > fin 1.0) (s : S) (y : Dbl K) (s' : S)
    (h : right_tgamma_reject_loop G a b fuel x0 s = .ret y s') :
    ∃ n, y = gammaDraw G a b s n ∧ s' = gammaState G a b s (n + 1) ∧
      ¬ (gammaDraw G a b s n > fin 1.0) ∧ ∀ j, j < n → gammaDraw G a b s j > fin 1.0 := by
  induction fuel generalizing x0 s with
  | zero => simp [right_tgamma_reject_loop] at h
  | succ f ih =>
    rw [right_tgamma_reject_loop, if_pos hx0] at h
    cases f with
    | zero => simp [right_tgamma_reject_loop] at h
    | succ f' =>
      by_cases hg : (gamma_rate G a b s).1 > fin 1.0
      · obtain ⟨n, h1, h2, h3, h4⟩ := ih _ hg _ h
        refine ⟨n + 1, ?_, ?_, ?_, ?_⟩
        · rw [gammaDraw_shift]; exact h1
        · rw [gammaState_shift]; exact h2
        · rw [gammaDraw_shift]; exact h3
        · intro j hj
          cases j with
          | zero => exact hg
          | succ j' =>
            rw [gammaDraw_shift]
            exact h4 j' (Nat.lt_of_succ_lt_succ hj)
      · rw [right_tgamma_reject_loop, if_neg hg] at h
        injection h with e1 e2
        refine ⟨0, e1.symm, e2.symm, hg, ?_⟩
        intro j hj
        exact absurd hj (Nat.not_lt_zero j)

/-- With enough fuel the rejection loop returns the first draw on which
`x > 1` is false. -/
theorem right_tgamma_reject_loop_complete (G : Gsl K S) (a b : Dbl K) (n : Nat) :
    ∀ (fuel : Nat) (x0 : Dbl K) (s : S), x0 > fin 1.0 → n + 2 ≤ fuel →
      (∀ j, j < n → gammaDraw G a b s j > fin 1.0) →
      ¬ (gammaDraw G a b s n > fin 1.0) →
      right_tgamma_reject_loop G a b fuel x0 s
        = .ret (gammaDraw G a b s n) (gammaState G a b s (n + 1)) := by
  induction n with
  | zero =>
    intro fuel x0 s hx0 hf _ hn
    obtain ⟨f, rfl⟩ : ∃ f, fuel = f + 2 := ⟨fuel - 2, by omega⟩
    rw [right_tgamma_reject_loop, if_pos hx0, right_tgamma_reject_loop]
    have hn' : ¬ ((gamma_rate G a b s).1 > fin 1.0) := hn
    rw [if_neg hn']
    rfl
  | succ k ih =>
    intro fuel x0 s hx0 hf hj hn
    obtain ⟨f, rfl⟩ : ∃ f, fuel = f + 1 := ⟨fuel - 1, by omega⟩
    rw [right_tgamma_reject_loop, if_pos hx0]
    have h0 : (gamma_rate G a b s).1 > fin 1.0 := hj 0 (Nat.succ_pos k)
    rw [gammaDraw_shift, gammaState_shift]
    apply ih f _ _ h0 (by omega)
    · intro j hjk
      rw [← gammaDraw_shift]
      exact hj (j + 1) (Nat.succ_lt_succ hjk)
    · rw [← gammaDraw_shift]; exact hn

theorem right_tgamma_reject_loop_congr (G G' : Gsl K S) (hg : G'.ran_gamma = G.ran_gamma)
    (a b : Dbl K) (fuel : Nat) (x0 : Dbl K) (s : S) :
    right_tgamma_reject_loop G' a b fuel x0 s = right_tgamma_reject_loop G a b fuel x0 s := by
  induction fuel generalizing x0 s with
  | zero => rfl
  | succ f ih =>
    rw [right_tgamma_reject_loop, right_tgamma_reject_loop]
    have e : gamma_rate G' a b s = gamma_rate G a b s := by
      simp only [gamma_rate, gamma_scale, hg]
    rw [e, ih]

theorem right_tgamma_beta_congr (G G' : Gsl K S) (hu : G'.rng_uniform = G.rng_uniform)
    (hb : G'.ran_beta = G.ran_beta) (m : CMath K) (fuel : Nat) (a b : Dbl K) (s : S) :
    right_tgamma_beta G' m fuel a b s = right_tgamma_beta G m fuel a b s := by
  simp only [right_tgamma_beta, unif, beta, hu, hb]

theorem Dbl.not_gt_iff_le (x y : K) : ¬ ((fin x : Dbl K) > fin y) ↔ (fin x : Dbl K) ≤ fin y :=
  not_lt

theorem Dbl.one_lit : (fin (1.0 : K) : Dbl K) = fin 1 := by
  congr 1; norm_num

theorem gammaDraw_not_gt_iff (G : Gsl K S) (a b : Dbl K)
    (hnum : ∀ t, ∃ g, (gamma_rate G a b t).1 = fin g) (s : S) (n : Nat) :
    ¬ (gammaDraw G a b s n > fin 1) ↔ gammaDraw G a b s n ≤ fin 1 := by
  obtain ⟨g, hg⟩ := hnum (gammaState G a b s n)
  rw [gammaDraw, hg]
  exact Dbl.not_gt_iff_le g 1

/-- C8: with `b = rate*right_t` and `p = p_gamma_rate(1, shape, b)`, on a
generator whose gamma draws are numbers: if `p > 0.95`, every value returned
by `rtgamma_rate` is `right_t` times the first `gamma_rate(shape, b)` draw
that is `<= 1`, every earlier draw being `> 1`, the final generator state is
the state after these draws, conversely the call returns as soon as the fuel
covers the first such draw, and no routine other than the gamma one has any
effect; if `p > 0.95` is false (in particular if `p = 0.95`), the call is
`right_t` times `right_tgamma_beta(shape, b)` and the gamma routine has no
effect on it. -/
theorem rtgamma_rate_strategy (G : Gsl K S) (m : CMath K) (shape rate right_t : Dbl K)
    (hnum : ∀ t, ∃ g, (gamma_rate G shape (rate * right_t) t).1 = fin g) :
    (p_gamma_rate m (fin 1) shape (rate * right_t) false > fin 0.95 →
      (∀ (fuel : Nat) (s : S) (x : Dbl K) (s' : S),
        rtgamma_rate G m fuel shape rate right_t s = .ret x s' →
        ∃ n, x = right_t * gammaDraw G shape (rate * right_t) s n ∧
          s' = gammaState G shape (rate * right_t) s (n + 1) ∧
          gammaDraw G shape (rate * right_t) s n ≤ fin 1 ∧
          ∀ j, j < n → gammaDraw G shape (rate * right_t) s j > fin 1) ∧
      (∀ (n fuel : Nat) (s : S), n + 2 ≤ fuel →
        (∀ j, j < n → gammaDraw G shape (rate * right_t) s j > fin 1) →
        gammaDraw G shape (rate * right_t) s n ≤ fin 1 →
        rtgamma_rate G m fuel shape rate right_t s
          = .ret (right_t * gammaDraw G shape (rate * right_t) s n)
              (gammaState G shape (rate * right_t) s (n + 1))) ∧
      (∀ G' : Gsl K S, G'.ran_gamma = G.ran_gamma → ∀ (fuel : Nat) (s : S),
        rtgamma_rate G' m fuel shape rate right_t s
          = rtgamma_rate G m fuel shape rate right_t s)) ∧
    (¬ p_gamma_rate m (fin 1) shape (rate * right_t) false > fin 0.95 →
      (∀ (fuel : Nat) (s : S), rtgamma_rate G m fuel shape rate right_t s
        = Outcome.map (fun y => right_t * y)
            (right_tgamma_beta G m fuel shape (rate * right_t) s)) ∧
      (∀ G' : Gsl K S, G'.rng_uniform = G.rng_uniform → G'.ran_beta = G.ran_beta →
        ∀ (fuel : Nat) (s : S), rtgamma_rate G' m fuel shape rate right_t s
          = rtgamma_rate G m fuel shape rate right_t s)) ∧
    (p_gamma_rate m (fin 1) shape (rate * right_t) false = fin 0.95 →
      ∀ (fuel : Nat) (s : S), rtgamma_rate G m fuel shape rate right_t s
        = Outcome.map (fun y => right_t * y)
            (right_tgamma_beta G m fuel shape (rate * right_t) s)) := by
  have h2 : (fin (2.0 : K) : Dbl K) > fin 1.0 := by
    show (1.0 : K) < 2.0
    norm_num
  have hbeta : ¬ p_gamma_rate m (fin 1) shape (rate * right_t) false > fin 0.95 →
      ∀ (G1 : Gsl K S) (fuel : Nat) (s : S), rtgamma_rate G1 m fuel shape rate right_t s
        = Outcome.map (fun y => right_t * y)
            (right_tgamma_beta G1 m fuel shape (rate * right_t) s) := by
    intro hp G1 fuel s
    rw [rtgamma_rate, if_neg hp]
  have hrej : p_gamma_rate m (fin 1) shape (rate * right_t) false > fin 0.95 →
      ∀ (G1 : Gsl K S) (fuel : Nat) (s : S), rtgamma_rate G1 m fuel shape rate right_t s
        = Outcome.map (fun y => right_t * y)
            (right_tgamma_reject_loop G1 shape (rate * right_t) fuel (fin 2.0) s) := by
    intro hp G1 fuel s
    rw [rtgamma_rate, if_pos hp, right_tgamma_reject]
  refine ⟨fun hp => ⟨?_, ?_, ?_⟩, fun hp => ⟨hbeta hp G, ?_⟩, fun hp => ?_⟩
  · intro fuel s x s' h
    rw [hrej hp, Outcome.map_eq_ret] at h
    obtain ⟨y, hy, hxy⟩ := h
    obtain ⟨n, h1, h2', h3, h4⟩ :=
      right_tgamma_reject_loop_sound G shape (rate * right_t) fuel _ h2 s y s' hy
    rw [Dbl.one_lit] at h3
    refine ⟨n, ?_, h2', (gammaDraw_not_gt_iff G _ _ hnum s n).mp h3, ?_⟩
    · rw [← hxy, h1]
    · intro j hj
      have := h4 j hj
      rw [Dbl.one_lit] at this
      exact this
  · intro n fuel s hf hj hn
    rw [hrej hp]
    rw [right_tgamma_reject_loop_complete G shape (rate * right_t) n fuel _ s h2 hf]
    · rfl
    · intro j hjn
      rw [Dbl.one_lit]
      exact hj j hjn
    · rw [Dbl.one_lit]
      exact (gammaDraw_not_gt_iff G _ _ hnum s n).mpr hn
  · intro G' hG' fuel s
    rw [hrej hp, hrej hp, right_tgamma_reject_loop_congr G G' hG']
  · intro G' hu hb fuel s
    rw [hbeta hp, hbeta hp, right_tgamma_beta_congr G G' hu hb]
  · have hp' : ¬ p_gamma_rate m (fin 1) shape (rate * right_t) false > fin 0.95 := by
      rw [hp]
      exact lt_irrefl (0.95 : K)
    exact hbeta hp' G

theorem qGsl_gamma_number (a b : ℚ) (hb : b ≠ 0) (t : ℕ) :
    ∃ g, (gamma_rate qGsl (fin a) (fin b) t).1 = fin g := by
  refine ⟨a * (1.0 / b) * (40 / ((t : ℚ) + 1)), ?_⟩
  simp only [gamma_rate, gamma_scale, qGsl, Dbl.fin_div, if_neg hb, Dbl.fin_mul]

/-- On the counting generator `rtgamma_rate(1, 10, 2)` has `p = 20/21 > 0.95`;
the first gamma draw is `2 > 1`, the second is `1`, and the call returns
`2 * 1` in the state after the two draws. -/
theorem rtgamma_rate_strategy_witness :
    rtgamma_rate qGsl qMath 3 (fin 1) (fin 10) (fin 2) 0
      = .ret (fin 2 * gammaDraw qGsl (fin 1) (fin 10 * fin 2) 0 1)
          (gammaState qGsl (fin 1) (fin 10 * fin 2) 0 2) :=
  ((rtgamma_rate_strategy qGsl qMath (fin 1) (fin 10) (fin 2)
      (qGsl_gamma_number 1 (10 * 2) (by norm_num))).1 run_gamma_reject_p).2.1 1 3 0
    (le_refl 3)
    (by
      intro j hj
      have : j = 0 := by omega
      subst this
      simp [gammaDraw, gammaState, gamma_rate, gamma_scale, qGsl]
      norm_num)
    (by
      simp [gammaDraw, gammaState, gamma_rate, gamma_scale, qGsl]
      norm_num)

end Strategy

/-! ## Right truncated gamma: the Beta series -/

section Series

variable {K S : Type} [LinearOrderedField K]

theorem omega_sum_succ (m : CMath K) (a b : Dbl K) (k : Nat) (hk : 1 ≤ k) :
    omega_sum m a b (k + 1) = omega_sum m a b k + omega_k m (k + 1) a b := by
  cases k with
  | zero => exact absurd hk (by decide)
  | succ j => rfl

theorem omega_sum_number (m : CMath K) (a b : Dbl K)
    (hω : ∀ j : Nat, 1 ≤ j → ∃ w, omega_k m j a b = fin w) (k : Nat) :
    ∃ c, omega_sum m a b k = fin c := by
  induction k with
  | zero => exact ⟨0, rfl⟩
  | succ j ih =>
    cases j with
    | zero => exact hω 1 (le_refl 1)
    | succ i =>
      obtain ⟨c, hc⟩ := ih
      obtain ⟨w, hw⟩ := hω (i + 2) (by omega)
      exact ⟨c + w, by rw [omega_sum, hc, hw]; rfl⟩

/-- The index at which the series loop stops, entered at `k` with the partial
sum of `k`: the first index from `k` on whose partial sum `u` does not exceed. -/
theorem right_tgamma_beta_loop_sound (m : CMath K) (a b u : Dbl K) (fuel : Nat) :
    ∀ (k : Nat), 1 ≤ k → ∀ k' : Nat,
      right_tgamma_beta_loop m a b u fuel k (omega_sum m a b k) = .ret k' () →
      k ≤ k' ∧ ¬ (u > omega_sum m a b k') ∧
        ∀ j, k ≤ j → j < k' → u > omega_sum m a b j := by
  induction fuel with
  | zero => intro k _ k' h; simp [right_tgamma_beta_loop] at h
  | succ f ih =>
    intro k hk k' h
    rw [right_tgamma_beta_loop] at h
    by_cases hu : u > omega_sum m a b k
    · rw [if_pos hu] at h
      split at h
      · simp at h
      · rw [← omega_sum_succ m a b k hk] at h
        obtain ⟨h1, h2, h3⟩ := ih (k + 1) (Nat.le_succ_of_le hk) k' h
        refine ⟨Nat.le_of_succ_le h1, h2, ?_⟩
        intro j hkj hjk'
        rcases Nat.eq_or_lt_of_le hkj with e | hlt
        · rw [← e]; exact hu
        · exact h3 j hlt hjk'
    · rw [if_neg hu] at h
      injection h with e1 e2
      subst e1
      refine ⟨le_refl k, hu, ?_⟩
      intro j hkj hjk
      exact absurd hjk (not_lt.mpr hkj)

/-- With enough fuel, and short of the `int` range, the series loop stops at
the first index whose partial sum `u` does not exceed. -/
theorem right_tgamma_beta_loop_complete (m : CMath K) (a b u : Dbl K) (d : Nat) :
    ∀ (fuel k : Nat), 1 ≤ k → k + d ≤ INT_MAX → d < fuel →
      (∀ j, k ≤ j → j < k + d → u > omega_sum m a b j) →
      ¬ (u > omega_sum m a b (k + d)) →
      right_tgamma_beta_loop m a b u fuel k (omega_sum m a b k) = .ret (k + d) () := by
  induction d with
  | zero =>
    intro fuel k _ _ hf _ hstop
    obtain ⟨f, rfl⟩ : ∃ f, fuel = f + 1 := ⟨fuel - 1, by omega⟩
    have hstop' : ¬ (u > omega_sum m a b k) := hstop
    rw [right_tgamma_beta_loop, if_neg hstop']
    rfl
  | succ e ih =>
    intro fuel k hk hmax hf hbelow hstop
    obtain ⟨f, rfl⟩ : ∃ f, fuel = f + 1 := ⟨fuel - 1, by omega⟩
    have hu : u > omega_sum m a b k := hbelow k (le_refl k) (by omega)
    have hno : ¬ (k + 1 > INT_MAX) := by omega
    rw [right_tgamma_beta_loop, if_pos hu, if_neg hno, ← omega_sum_succ m a b k hk]
    have e1 : k + (e + 1) = (k + 1) + e := by omega
    rw [e1]
    apply ih f (k + 1) (Nat.le_succ_of_le hk) (by omega) (by omega)
    · intro j hj1 hj2
      exact hbelow j (by omega) (by omega)
    · rw [← e1]; exact hstop

/-- C9: when the uniform draw `u` and the terms `omega_j`, `j ≥ 1`, are numbers,
`right_tgamma_beta(shape, b)` makes one uniform draw `u` and then, whenever it
returns, returns the `beta(shape, k)` draw made next, where `k >= 1` is the
least index with `omega_1 + ... + omega_k >= u` (every partial sum of a
smaller index is `< u`); conversely it returns that draw as soon as the fuel
covers `k` (for `k` in the `int` range); and `omega_j` is
`exp(-b + (shape+j-1)*log(b) - lngamma(shape+j) - log(P(1; shape, scale 1/b)))`. -/
theorem right_tgamma_beta_series (G : Gsl K S) (m : CMath K) (a b : Dbl K) (s : S) (u : K)
    (hu : (unif G s).1 = fin u)
    (hω : ∀ j : Nat, 1 ≤ j → ∃ w, omega_k m j a b = fin w) :
    (∀ (fuel : Nat) (x : Dbl K) (s' : S), right_tgamma_beta G m fuel a b s = .ret x s' →
      ∃ k : Nat, 1 ≤ k ∧ x = (beta G a (fin (k : K)) (unif G s).2).1 ∧
        s' = (beta G a (fin (k : K)) (unif G s).2).2 ∧
        omega_sum m a b k ≥ fin u ∧
        ∀ j, 1 ≤ j → j < k → omega_sum m a b j < fin u) ∧
    (∀ (k fuel : Nat), 1 ≤ k → k ≤ INT_MAX → k ≤ fuel → omega_sum m a b k ≥ fin u →
      (∀ j, 1 ≤ j → j < k → omega_sum m a b j < fin u) →
      right_tgamma_beta G m fuel a b s
        = .ret (beta G a (fin (k : K)) (unif G s).2).1
            (beta G a (fin (k : K)) (unif G s).2).2) ∧
    (∀ j : Nat, omega_k m j a b
      = app m.exp (-b + (a + fin (j : K) - fin 1) * app m.log b
          - app m.sf_lngamma (a + fin (j : K))
          - app m.log (app3 m.cdf_gamma_P (fin 1) a (fin 1 / b)))) := by
  have hle : ∀ k, ¬ (fin u > omega_sum m a b k) ↔ omega_sum m a b k ≥ fin u := by
    intro k
    obtain ⟨c, hc⟩ := omega_sum_number m a b hω k
    rw [hc]
    exact not_lt
  refine ⟨?_, ?_, ?_⟩
  · intro fuel x s' h
    obtain ⟨k, hk, hloop, hx, hs'⟩ := right_tgamma_beta_ret G m fuel a b s x s' h
    rw [hu] at hloop
    have hsum : omega_k m 1 a b = omega_sum m a b 1 := rfl
    rw [hsum] at hloop
    obtain ⟨-, h2, h3⟩ := right_tgamma_beta_loop_sound m a b (fin u) fuel 1 (le_refl 1) k hloop
    exact ⟨k, hk, hx, hs', (hle k).mp h2, h3⟩
  · intro k fuel hk hmax hf hge hbelow
    obtain ⟨d, rfl⟩ : ∃ d, k = 1 + d := ⟨k - 1, by omega⟩
    have hloop := right_tgamma_beta_loop_complete m a b (fin u) d fuel 1 (le_refl 1) hmax
      (by omega) (fun j h1 h2 => hbelow j h1 h2) ((hle (1 + d)).mpr hge)
    rw [right_tgamma_beta]
    dsimp only
    rw [hu]
    have hsum : omega_k m 1 a b = omega_sum m a b 1 := rfl
    rw [hsum, hloop]
  · intro j
    have e1 : (fin (1.0 : K) : Dbl K) = fin 1 := by congr 1; norm_num
    simp only [omega_k, Gamma, p_gamma_rate, e1]
    rfl

theorem qMath_omega_number (j : ℕ) : ∃ w, omega_k qMath j (fin 2) (fin 1) = fin w := by
  have h1 : (0 : ℚ) < 2 + (j : ℚ) := by positivity
  simp [omega_k, Gamma, p_gamma_rate, qMath, h1]
  norm_num
  split <;> exact ⟨_, rfl⟩

theorem qMath_omega_sum_one : omega_sum qMath (fin 2) (fin 1) 1 = fin (3 / 7) := by
  simp [omega_sum, omega_k, Gamma, p_gamma_rate, qMath]
  norm_num

theorem qMath_omega_sum_two : omega_sum qMath (fin 2) (fin 1) 2 = fin (60 / 91) := by
  simp [omega_sum, omega_k, Gamma, p_gamma_rate, qMath]
  norm_num

/-- On the counting generator with `shape = 2`, `b = 1` the uniform draw is
`1/2`, the partial sums are `3/7 < 1/2` and `60/91 ≥ 1/2`, and
`right_tgamma_beta` returns the `beta(2, 2)` draw `1/2` made in state 1. -/
theorem right_tgamma_beta_series_witness :
    right_tgamma_beta qGsl qMath 2 (fin 2) (fin 1) 0 = .ret (fin (1 / 2)) 2 := by
  have h := (right_tgamma_beta_series qGsl qMath (fin 2) (fin 1) 0 (1 / 2)
    (by simp [unif, qGsl]) (fun j _ => qMath_omega_number j)).2.1 2 2 (by norm_num)
    (by unfold INT_MAX; norm_num) (le_refl 2)
    (by rw [qMath_omega_sum_two]; show (1 / 2 : ℚ) ≤ 60 / 91; norm_num)
    (by
      intro j h1 h2
      have : j = 1 := by omega
      subst this
      rw [qMath_omega_sum_one]
      show (3 / 7 : ℚ) < 1 / 2
      norm_num)
  rw [h]
  simp [beta, qGsl, unif]
  norm_num

end Series

/-! ## The acceptance ratios are probabilities -/

section Ratios

variable {K S : Type} [LinearOrderedField K]

end Ratios

end RNG
